import Mathlib

/-!
Verification of the workspace symbol index and alias resolver of an SCSS
language-server core (alias resolution, workspace scanning, storage
invariants, go-to-definition, completion labelling).

JavaScript strings are embedded as `List Char` (named `Str`).  The Node.js
`path` module (POSIX flavour), JavaScript's `String.prototype.replace`
(including its `$`-substitution sequences), JavaScript `Map` semantics
(insertion order, update-in-place) and JavaScript `Set`-iteration semantics
(elements appended during iteration are visited) are modelled explicitly
below.  File-system reads and the external stylesheet parser are external
collaborators and enter as oracle parameters.  `URI.file(p).toString()` for
a plain absolute POSIX path is modelled as prepending the scheme text
`file://`.  Functions whose JavaScript originals can diverge or throw
return `Option`, with `none` for divergence / thrown `TypeError`.
-/

set_option maxHeartbeats 1000000

/-- JavaScript strings, embedded as lists of characters. -/
abbrev Str := List Char

/-- The character `$` (written by code to avoid literal-token pitfalls). -/
def dollarChar : Char := Char.ofNat 36

/-- The character `&`. -/
def ampChar : Char := Char.ofNat 38

/-- The backtick character. -/
def backquoteChar : Char := Char.ofNat 96

/-- The single-quote character. -/
def quoteChar : Char := Char.ofNat 39

/-- JavaScript truthiness of a string: nonempty. -/
def jsTruthyStr (s : Str) : Bool := s ≠ []

/-- JavaScript truthiness of `string | undefined | null`. -/
def jsTruthyOptStr (s : Option Str) : Bool :=
  match s with
  | none => false
  | some s => jsTruthyStr s

/-- JavaScript `x || ''` for `x : string | null | undefined`. -/
def jsOrEmpty (s : Option Str) : Str :=
  match s with
  | none => []
  | some s => s

/-- JavaScript `ToString` of `string | undefined` (as produced by indexing
an empty array): `undefined` prints as the text `undefined`. -/
def jsToString (s : Option Str) : Str :=
  match s with
  | none => "undefined".data
  | some s => s

/-- Split a character list at every occurrence of `sep`
(JavaScript `s.split(sep)`; the result is never empty). -/
def splitChar (sep : Char) (s : Str) : List Str :=
  s.foldr
    (fun c acc =>
      match acc with
      | [] => [[c]]
      | cur :: rest => if c = sep then [] :: cur :: rest else (c :: cur) :: rest)
    [[]]

/-- Join chunks with `/` between them. -/
def interSlash : List Str → Str
  | [] => []
  | [s] => s
  | s :: rest => s ++ '/' :: interSlash rest

/-- The `/`-separated nonempty components of a path string. -/
def segsOf (p : Str) : List Str :=
  (splitChar '/' p).filter (fun s => s ≠ [])

/-- One step of Node's `normalizeString`: push a real segment, skip `.`,
let `..` pop the previous real segment (above the root it is dropped for
absolute paths and kept for relative ones). -/
def normStep (abs : Bool) (acc : List Str) (seg : Str) : List Str :=
  if seg = ['.'] then acc
  else if seg = ['.', '.'] then
    match acc with
    | prev :: rest => if prev = ['.', '.'] then seg :: acc else rest
    | [] => if abs then [] else [seg]
  else seg :: acc

/-- Resolution of `.` and `..` segments, as in Node's `normalizeString`
(the accumulator is kept reversed). -/
def normSegs (abs : Bool) (segs : List Str) : List Str :=
  (segs.foldl (normStep abs) []).reverse

/-- Node `path.posix.normalize`. -/
def jsNormalize (p : Str) : Str :=
  if p = [] then ['.']
  else
    let abs := p.head? = some '/'
    let trailing := p.getLast? = some '/'
    let core := interSlash (normSegs abs (segsOf p))
    if abs then
      if core = [] then ['/'] else '/' :: core ++ (if trailing then ['/'] else [])
    else
      if core = [] then (if trailing then ['.', '/'] else ['.'])
      else core ++ (if trailing then ['/'] else [])

/-- Node `path.posix.resolve(a, b)` with the process working directory
`cwd` supplied explicitly (Node falls back to it when neither argument is
absolute). -/
def jsResolve2 (cwd a b : Str) : Str :=
  let joined :=
    if b.head? = some '/' then b
    else if a.head? = some '/' then a ++ '/' :: b
    else cwd ++ '/' :: a ++ '/' :: b
  let core := interSlash (normSegs true (segsOf joined))
  if core = [] then ['/'] else '/' :: core

/-- Node `path.posix.resolve(a)` (one argument). -/
def jsResolve1 (cwd a : Str) : Str :=
  let joined := if a.head? = some '/' then a else cwd ++ '/' :: a
  let core := interSlash (normSegs true (segsOf joined))
  if core = [] then ['/'] else '/' :: core

/-- Length of the common prefix of two segment lists. -/
def commonLen : List Str → List Str → Nat
  | a :: as2, b :: bs => if a = b then commonLen as2 bs + 1 else 0
  | _, _ => 0

/-- Node `path.posix.relative(src, dst)`. -/
def jsRelative (cwd src dst : Str) : Str :=
  let f := jsResolve1 cwd src
  let t := jsResolve1 cwd dst
  if f = t then []
  else
    let fsegs := segsOf f
    let tsegs := segsOf t
    let c := commonLen fsegs tsegs
    interSlash (List.replicate (fsegs.length - c) ['.', '.'] ++ tsegs.drop c)

/-- Node `path.posix.dirname`, char-exact (trailing-slash and
double-slash quirks preserved). -/
def jsDirname (p : Str) : Str :=
  match p with
  | [] => ['.']
  | c :: _ =>
    let hasRoot := c = '/'
    let rp2 := ((p.reverse.dropWhile (fun d => d = '/')).dropWhile (fun d => d ≠ '/'))
    if rp2.length ≤ 1 then
      if hasRoot then ['/'] else ['.']
    else
      let e := rp2.length - 1
      if hasRoot ∧ e = 1 then ['/', '/']
      else p.take e

/-- Node `path.posix.join(a, b)`. -/
def jsJoin2 (a b : Str) : Str :=
  let joined := if a = [] then b else if b = [] then a else a ++ '/' :: b
  if joined = [] then ['.'] else jsNormalize joined

/-- Index of the first occurrence of `pat` in `s`
(JavaScript `s.indexOf(pat)`, `none` for `-1`). -/
def strIndexOf (s pat : Str) : Option Nat :=
  if pat.isPrefixOf s then some 0
  else
    match s with
    | [] => none
    | _ :: t => (strIndexOf t pat).map (· + 1)

/-- `GetSubstitution` for a string replacement in JavaScript
`String.prototype.replace`: with no capture groups only the sequences
`$$`, `$&`, dollar-backquote and dollar-quote are special. -/
def jsSubstitution (matched before after : Str) : Str → Str
  | [] => []
  | c :: r =>
    if c = dollarChar then
      match r with
      | [] => [c]
      | d :: r2 =>
        if d = dollarChar then dollarChar :: jsSubstitution matched before after r2
        else if d = ampChar then matched ++ jsSubstitution matched before after r2
        else if d = backquoteChar then before ++ jsSubstitution matched before after r2
        else if d = quoteChar then after ++ jsSubstitution matched before after r2
        else c :: d :: jsSubstitution matched before after r2
    else c :: jsSubstitution matched before after r

/-- JavaScript `s.replace(pat, repl)` for string `pat` and string `repl`:
replaces the first occurrence, applying `$`-substitution to `repl`. -/
def jsReplace (s pat repl : Str) : Str :=
  match strIndexOf s pat with
  | none => s
  | some i =>
    s.take i ++ jsSubstitution pat (s.take i) (s.drop (i + pat.length)) repl
      ++ s.drop (i + pat.length)

/-- `s.replace(/(\.module)?\.scss/, '')`: remove the earliest occurrence
of `.module.scss` or `.scss` (longer alternative wins at a tie). -/
def stripModuleScss (s : Str) : Str :=
  match s with
  | [] => []
  | c :: r =>
    if (".module.scss".data).isPrefixOf (c :: r) then r.drop 11
    else if (".scss".data).isPrefixOf (c :: r) then r.drop 4
    else c :: stripModuleScss r

/-- `alias.replace(/\*$/, '')` from the tsconfig parser: strip one
trailing `*`. -/
def stripTrailingStar (s : Str) : Str :=
  if s.getLast? = some '*' then s.dropLast else s

/-- `URI.file(p).toString()` for an absolute POSIX path. -/
def uriFile (p : Str) : Str := "file://".data ++ p

/-- `fsPathToUri` from `utils/fs.ts`. -/
def fsPathToUri (pathname : Str) : Str := uriFile (jsNormalize pathname)

/-- `uriToFsPath` from `utils/fs.ts`. -/
def uriToFsPath (uri : Str) : Str :=
  jsNormalize (if ("file://".data).isPrefixOf uri then uri.drop 7 else uri)

/-- The test `isDescendant` applies to the computed relative path:
nonempty, not starting with `..`, not absolute. -/
def isDescendantRel (relative : Str) : Bool :=
  jsTruthyStr relative && !((['.', '.'] : Str).isPrefixOf relative)
    && !(relative.head? = some '/')

/-- `isDescendant` from `utils/fs.ts`. -/
def isDescendant (cwd file dir : Str) : Bool :=
  isDescendantRel (jsRelative cwd dir file)

/-! ## Data model (`types/symbols.ts`, `types/nodes.ts`, `types/settings.ts`) -/

/-- An editor position (line/character), from the language-server types. -/
structure Position where
  line : Nat
  character : Nat
deriving DecidableEq, Repr

/-- The node kinds of the stylesheet syntax tree that the core inspects. -/
inductive NodeType
  | Identifier
  | StringLiteral
  | Function
  | MixinReference
  | VariableName
  | VariableDeclaration
  | FunctionParameter
  | Import
  | Use
  | Other
deriving DecidableEq, Repr

/-- A syntax-tree node as far as the completion provider inspects the
top-level children of a stylesheet (type tag, offset, length). -/
structure INodeChild where
  type : NodeType
  offset : Nat
  length : Nat
deriving DecidableEq, Repr

/-- `IVariable` (also used for mixin/function parameters). -/
structure IVariable where
  name : Str
  position : Option Position := none
  offset : Nat := 0
  value : Option Str := none
  mixin : Option Str := none
deriving DecidableEq, Repr

/-- `IMixin` (also `IFunction`). -/
structure IMixin where
  name : Str
  position : Option Position := none
  offset : Nat := 0
  parameters : List IVariable := []
deriving DecidableEq, Repr

/-- `IImport`. -/
structure IImport where
  filepath : Str
  dynamic : Bool
  css : Bool
deriving DecidableEq, Repr

/-- `ISymbols`. -/
structure ISymbols where
  «variables» : List IVariable := []
  mixins : List IMixin := []
  functions : List IMixin := []
  imports : List IImport := []
deriving DecidableEq, Repr

/-- `IDocumentSymbols`: a symbol table plus the two path fields. -/
structure IDocumentSymbols extends ISymbols where
  document : Option Str := none
  filepath : Option Str := none
deriving DecidableEq, Repr

/-- `IPathShorthand`: one alias rule of a parsed tsconfig. -/
structure IPathShorthand where
  «alias» : Str
  paths : List Str
deriving DecidableEq, Repr

/-- `ITsConfig`: a parsed tsconfig entry. -/
structure ITsConfig where
  filepath : Str
  paths : Option (List IPathShorthand) := none
deriving DecidableEq, Repr

/-- The extension settings consumed by the core. -/
structure ISettings where
  scanImportedFiles : Bool := true
  implicitlyLabel : Option Str := none
  suggestVariables : Bool := true
  suggestMixins : Bool := true
  suggestFunctions : Bool := true
  suggestFunctionsInStringContextAfterSymbols : Str := []
deriving DecidableEq, Repr

/-! ## JavaScript `Map` semantics over association lists -/

/-- `Map.prototype.get`. -/
def mapGet (m : List (Str × α)) (k : Str) : Option α :=
  (m.find? (fun e => e.1 = k)).map (·.2)

/-- `Map.prototype.set`: update in place if the key is present (keeping
its position in insertion order), append otherwise. -/
def mapSet (m : List (Str × α)) (k : Str) (v : α) : List (Str × α) :=
  if m.any (fun e => e.1 = k) then
    m.map (fun e => if e.1 = k then (k, v) else e)
  else m ++ [(k, v)]

/-- `Map.prototype.delete`. -/
def mapDelete (m : List (Str × α)) (k : Str) : List (Str × α) :=
  m.filter (fun e => e.1 ≠ k)

/-! ## `StorageService` (`services/storage.ts`) -/

/-- The Workspace Index: symbol tables, parsed tsconfigs and
document-to-config associations. -/
structure StorageService where
  scssDocuments : List (Str × IDocumentSymbols) := []
  tsConfigs : List (Str × ITsConfig) := []
  tsConfigsAssociations : List (Str × Str) := []
deriving DecidableEq, Repr

namespace StorageService

/-- `StorageService.get`. -/
def get (st : StorageService) (key : Str) : Option IDocumentSymbols :=
  mapGet st.scssDocuments key

/-- `StorageService.set`. -/
def set (st : StorageService) (key : Str) (value : IDocumentSymbols) : StorageService :=
  { st with scssDocuments := mapSet st.scssDocuments key value }

/-- `StorageService.delete`. -/
def delete (st : StorageService) (key : Str) : StorageService :=
  { st with scssDocuments := mapDelete st.scssDocuments key }

/-- `StorageService.clear`: clears documents and configs but (as in the
source) not the associations map. -/
def clear (st : StorageService) : StorageService :=
  { st with scssDocuments := [], tsConfigs := [] }

/-- `StorageService.getTsConfig`. -/
def getTsConfig (st : StorageService) (configUri : Str) : Option ITsConfig :=
  mapGet st.tsConfigs configUri

/-- `StorageService.setTsConfig`. -/
def setTsConfig (st : StorageService) (configUri : Str) (configValue : ITsConfig) : StorageService :=
  { st with tsConfigs := mapSet st.tsConfigs configUri configValue }

/-- `StorageService.deleteTsConfig`. -/
def deleteTsConfig (st : StorageService) (configUri : Str) : StorageService :=
  { st with tsConfigs := mapDelete st.tsConfigs configUri }

/-- `StorageService.getAssociatedTsConfig` (note the JavaScript truthiness
test on the association value). -/
def getAssociatedTsConfig (st : StorageService) (scssUri : Str) : Option ITsConfig :=
  match mapGet st.tsConfigsAssociations scssUri with
  | none => none
  | some u => if jsTruthyStr u then mapGet st.tsConfigs u else none

/-- `StorageService.associate`. -/
def associate (st : StorageService) (scssUri tsConfigUri : Str) : StorageService :=
  { st with tsConfigsAssociations := mapSet st.tsConfigsAssociations scssUri tsConfigUri }

/-- `StorageService.desociate`. -/
def desociate (st : StorageService) (scssUri : Str) : StorageService :=
  { st with tsConfigsAssociations := mapDelete st.tsConfigsAssociations scssUri }

/-- `StorageService.keys`. -/
def keys (st : StorageService) : List Str :=
  st.scssDocuments.map (·.1)

/-- `StorageService.values`. -/
def values (st : StorageService) : List IDocumentSymbols :=
  st.scssDocuments.map (·.2)

end StorageService

/-! ## Alias resolver (`utils/aliasedPath.ts`) -/

/-- `resolveAliasedPath`: first alias whose (already `*`-stripped) text is
a prefix of the import path wins; its first substitution candidate is
substituted by JavaScript `replace` and resolved against the config file's
directory; otherwise the import path resolves against the importing
document's directory. -/
def resolveAliasedPath (cwd : Str) (fsPath documentPath : Str)
    (associatedTsConfig : Option ITsConfig) : Str :=
  let matchingShorthand :=
    ((associatedTsConfig.bind (fun c => c.paths)).getD []).find?
      (fun pathShorthand => pathShorthand.alias.isPrefixOf fsPath)
  match associatedTsConfig, matchingShorthand with
  | some cfg, some shorthand =>
    let inputFragmentAfterReplacement :=
      jsReplace fsPath shorthand.alias (jsToString shorthand.paths.head?)
    jsResolve2 cwd (jsDirname cfg.filepath) inputFragmentAfterReplacement
  | _, _ => jsResolve2 cwd (jsDirname documentPath) fsPath

/-! ## `findFileInParents` (`utils/fs.ts`)

The JavaScript `while` loop can fail to terminate (e.g. once `dir` reaches
`/`, `path.dirname` is the identity).  The loop is therefore modelled with
fuel; since each `path.dirname` step on a string of length at least two
strictly shortens the string, `dir.length + 2` units of fuel are enough
for every terminating run, so `none` models divergence of the original. -/

/-- The `while (dir !== limit)` loop of `findFileInParents`; `fs` is the
`fileExists` oracle. -/
def findLoop (fs : Str → Bool) (filename : Str) : Nat → Str → Str → Option (Option Str)
  | 0, _, _ => none
  | fuel + 1, dir, limit =>
    if dir = limit then some none
    else
      let filepath := jsJoin2 dir filename
      if fs filepath then some (some filepath)
      else findLoop fs filename fuel (jsDirname dir) limit

/-- `findFileInParents`: guard, then the ancestor walk. -/
def findFileInParents (cwd : Str) (fs : Str → Bool) (filename dir limit : Str) :
    Option (Option Str) :=
  if !(isDescendant cwd dir limit) || isDescendant cwd limit dir then some none
  else findLoop fs filename (dir.length + 2) dir limit

/-! ## `ScannerService` (`services/scanner.ts`)

`parseTsConfig` performs file I/O, so `addTsConfigFile` and
`updateTsConfigFile` take the parsed `ITsConfig` as an oracle argument.
`scanScssFiles` takes the file system as a finite association list from
normalized paths to the symbol tables that `parseDocument` extracts
(`readFile` + the external stylesheet parser); a missing key is a file
that does not exist. -/

/-- `ScannerService.addTsConfigFile` (with the `parseTsConfig` result
supplied): store the config, then associate every currently indexed
document key that `isDescendant` accepts against the config's directory. -/
def addTsConfigFile (cwd : Str) (st : StorageService) (tsConfigPath : Str)
    (tsConfig : ITsConfig) : StorageService :=
  let tsConfigUri := fsPathToUri tsConfigPath
  let st1 := st.setTsConfig tsConfigUri tsConfig
  st1.keys.foldl
    (fun s scssUri =>
      if isDescendant cwd scssUri (jsDirname tsConfigPath) then
        if jsTruthyStr tsConfigUri then s.associate scssUri tsConfigUri
        else s.desociate scssUri
      else s)
    st1

/-- `ScannerService.deleteTsConfigFile`: drop the config, look for the
nearest ancestor config via `findFileInParents`, and re-associate the
document keys that `isDescendant` accepts against the deleted config's
path (`none` when the inner walk diverges). -/
def deleteTsConfigFile (cwd : Str) (fs : Str → Bool) (st : StorageService)
    (tsConfigPath workspaceDir : Str) : Option StorageService :=
  let tsConfigUri := fsPathToUri tsConfigPath
  let st1 := st.deleteTsConfig tsConfigUri
  match findFileInParents cwd fs ("tsconfig.json".data)
      (jsDirname (jsDirname tsConfigPath)) workspaceDir with
  | none => none
  | some newTsConfigPath =>
    let newTsConfigUri := newTsConfigPath.map fsPathToUri
    some (st1.keys.foldl
      (fun s scssPath =>
        if isDescendant cwd scssPath tsConfigPath then
          match newTsConfigUri with
          | some u => if jsTruthyStr u then s.associate scssPath u else s.desociate scssPath
          | none => s.desociate scssPath
        else s)
      st1)

/-- `ScannerService.updateTsConfigFile` (with the `parseTsConfig` result
supplied): overwrite `paths` of the stored entry in place; a config that
was never stored is left alone. -/
def updateTsConfigFile (st : StorageService) (tsConfigPath : Str)
    (newTsConfig : ITsConfig) : StorageService :=
  let tsConfigUri := fsPathToUri tsConfigPath
  match st.getTsConfig tsConfigUri with
  | none => st
  | some oldTsConfig =>
    st.setTsConfig tsConfigUri { oldTsConfig with paths := newTsConfig.paths }

/-- JavaScript `Set.prototype.add` on the insertion-ordered element list:
append if not yet present. -/
def setAdd (l : List Str) (x : Str) : List Str :=
  if x ∈ l then l else l ++ [x]

/-- The initial contents of `new Set(files)`. -/
def setOfList (files : List Str) : List Str :=
  files.foldl setAdd []

/-- One pass of the body of the `for (let filepath of iterator)` loop of
`scanScssFiles`, processing element `i` of the iteration list `elems`.
Returns the grown iteration list, the updated storage and the processed
element appended to `visited`. -/
def scanLoop (scanImportedFiles : Bool) (fs : List (Str × ISymbols)) :
    Nat → List Str → Nat → StorageService → List Str →
    Option (StorageService × List Str)
  | 0, _, _, _, _ => none
  | fuel + 1, elems, i, st, visited =>
    if h : i < elems.length then
      let raw := elems.get ⟨i, h⟩
      let filepath := jsNormalize raw
      let uri := uriFile filepath
      match mapGet fs filepath with
      | none =>
        scanLoop scanImportedFiles fs fuel elems (i + 1) (st.delete uri) (visited ++ [raw])
      | some symbols =>
        let storageValue : IDocumentSymbols :=
          { toISymbols := symbols, document := some (uriToFsPath uri), filepath := some filepath }
        let st1 := st.set uri storageValue
        let elems1 :=
          if scanImportedFiles then
            (symbols.imports.filter (fun im => !im.dynamic && !im.css)).foldl
              (fun l im => setAdd l im.filepath) elems
          else elems
        scanLoop scanImportedFiles fs fuel elems1 (i + 1) st1 (visited ++ [raw])
    else some (st, visited)

/-- All import-target strings recorded anywhere in the file system
oracle; every element the scan can add to its iteration set lies in this
list. -/
def importUniverse (fs : List (Str × ISymbols)) : List Str :=
  fs.foldr (fun e acc => e.2.imports.map (·.filepath) ++ acc) []

/-- `ScannerService.scanScssFiles`: iterate a JavaScript `Set` seeded with
`files`, deleting entries of missing files, storing extracted symbol
tables, and (when `scanImportedFiles` is set) appending each non-dynamic,
non-css import target to the set.  The fuel exceeds every reachable
iteration count, so the result is in fact always `some` (proved below). -/
def scanScssFiles (scanImportedFiles : Bool) (fs : List (Str × ISymbols))
    (files : List Str) (st : StorageService) : Option (StorageService × List Str) :=
  scanLoop scanImportedFiles fs (files.length + (importUniverse fs).length + 1)
    (setOfList files) 0 st []

/-! ## Go-to-definition (`providers/goDefinition.ts`, `utils/symbols.ts`) -/

/-- The keys of `ISymbols` that an identifier can refer to. -/
inductive SymbolsKeyT
  | «variables»
  | mixins
  | functions
  | imports
deriving DecidableEq, Repr

/-- `IIdentifier`. -/
structure IIdentifier where
  type : SymbolsKeyT
  position : Position
  name : Str
deriving DecidableEq, Repr

/-- The name/position view of a symbol entry that the definition search
inspects (`symbols[identifier.type]` item). -/
structure NamedSymbol where
  name : Str
  position : Option Position
deriving DecidableEq, Repr

/-- The entries of the selected key of a symbol table, in the common
name/position view; `imports` yields nothing (the source skips it). -/
def kindItems (s : ISymbols) : SymbolsKeyT → List NamedSymbol
  | SymbolsKeyT.variables => s.variables.map (fun v => ⟨v.name, v.position⟩)
  | SymbolsKeyT.mixins => s.mixins.map (fun m => ⟨m.name, m.position⟩)
  | SymbolsKeyT.functions => s.functions.map (fun m => ⟨m.name, m.position⟩)
  | SymbolsKeyT.imports => []

/-- `samePosition` (an absent declaration position never equals the
reference position). -/
def samePosition (a : Option Position) (b : Position) : Bool :=
  match a with
  | none => false
  | some a => a.line = b.line && a.character = b.character

/-- `getSymbolsCollection` from `utils/symbols.ts`. -/
def getSymbolsCollection (storage : StorageService) : List IDocumentSymbols :=
  storage.values

/-- `getSymbolsRelatedToDocument` from `utils/symbols.ts`: keep every
table unless both its `document` and its `filepath` equal `current`. -/
def getSymbolsRelatedToDocument (storage : StorageService) (current : Str) :
    List IDocumentSymbols :=
  (getSymbolsCollection storage).filter
    (fun item => item.document ≠ some current || item.filepath ≠ some current)

/-- `ISymbol`: one definition candidate. -/
structure ISymbol where
  document : Option Str
  path : Str
  info : NamedSymbol
deriving DecidableEq, Repr

/-- `getSymbols` from `providers/goDefinition.ts` (`getDocumentPath` lives
in a file outside the provided sources and is passed in as `gdp`). -/
def getSymbols (gdp : Str → Option Str → Str) (symbolList : List IDocumentSymbols)
    (identifier : IIdentifier) (currentPath : Str) : List ISymbol :=
  symbolList.foldl
    (fun list symbols =>
      let fsPath := gdp currentPath symbols.document
      if identifier.type = SymbolsKeyT.imports then list
      else
        list ++
          ((kindItems symbols.toISymbols identifier.type).filter
            (fun item => item.name = identifier.name
              && !(samePosition item.position identifier.position))).map
            (fun item => ⟨symbols.filepath, fsPath, item⟩))
    []

/-- A protocol `Location` (uri plus a single-line range). -/
structure Location where
  uri : Str
  start : Position
  stop : Position
deriving DecidableEq, Repr

/-- `goIdentifier`: write the fresh symbol table back, search all other
tables, return the first candidate as a `Location`.  The outer `none`
models the `TypeError` thrown when the chosen candidate carries no
declaration position (reading `.line` of `undefined`); `some (st, none)`
is the `null` result. -/
def goIdentifier (gdp : Str → Option Str → Str) (storage : StorageService)
    (documentUri : Str) (symbols : IDocumentSymbols) (identifier : IIdentifier) :
    Option (StorageService × Option Location) :=
  let st1 := if symbols.document ≠ none then storage.set documentUri symbols else storage
  let documentPath := uriToFsPath documentUri
  let symbolsList := getSymbolsRelatedToDocument st1 documentPath
  let candidates := getSymbols gdp symbolsList identifier documentPath
  match candidates.head? with
  | none => some (st1, none)
  | some definition =>
    match definition.document with
    | none => some (st1, none)
    | some doc =>
      match definition.info.position with
      | none => none
      | some pos =>
        some (st1, some ⟨uriFile doc, pos,
          ⟨pos.line, pos.character + definition.info.name.length⟩⟩)

/-! ## Completion provider (`providers/completion.ts`)

`getDocumentPath` (`utils/document.ts`), `getVariableColor`
(`utils/color.ts`), `getLimitedString` (`utils/string.ts`) and
`TextDocument.positionAt` live outside the provided sources and are passed
in as oracles (`gdp`, `colorOf`, `limitStr`, `positionAt`). -/

/-- The completion item kinds the provider emits. -/
inductive CompletionItemKind
  | File
  | Folder
  | Variable
  | Color
  | Function
  | Interface
deriving DecidableEq, Repr

/-- A text edit (range plus replacement text). -/
structure TextEdit where
  start : Position
  stop : Position
  newText : Str
deriving DecidableEq, Repr

/-- A completion item, with the fields this provider populates. -/
structure CompletionItem where
  label : Str
  kind : CompletionItemKind
  detail : Str := []
  documentation : Str := []
  sortText : Option Str := none
  insertText : Option Str := none
  additionalTextEdits : List TextEdit := []
deriving DecidableEq, Repr

/-- `isImplicitly`: the symbol's owning document is neither the current
document nor among the current document's import targets. -/
def isImplicitly (symbolsDocument : Option Str) (documentPath : Str)
    (documentImports : List Str) : Bool :=
  match symbolsDocument with
  | none => true
  | some d => d ≠ documentPath && !(documentImports.contains d)

/-- `Array.prototype.join(', ')`. -/
def interComma : List Str → Str
  | [] => []
  | [s] => s
  | s :: rest => s ++ ", ".data ++ interComma rest

/-- JavaScript template interpolation of `string | null`: `null` prints
as the text `null`. -/
def jsToNullString (s : Option Str) : Str :=
  match s with
  | none => "null".data
  | some s => s

/-- `makeMixinDocumentation`; a missing default renders as the JavaScript
text `null` inside the template string. -/
def makeMixinDocumentation (symbol : IMixin) : Str :=
  let args := interComma (symbol.parameters.map
    (fun item => item.name ++ ": ".data ++ jsToNullString item.value))
  symbol.name ++ "(".data ++ args ++ ") \x7b…\x7d".data

/-- `createUseEdit`: append a new `@use` statement after the last one. -/
def createUseEdit (positionAt : Nat → Position) (lastUse : INodeChild) (fsPath : Str) :
    TextEdit :=
  let start := positionAt (lastUse.offset + lastUse.length)
  ⟨start, start, "\n@use '".data ++ fsPath ++ "';".data⟩

/-- `.sort((a, b) => b.offset - a.offset)[0]`: the first element of
maximal offset. -/
def lastUseOf (l : List INodeChild) : Option INodeChild :=
  l.foldl
    (fun acc n =>
      match acc with
      | none => some n
      | some m => if n.offset > m.offset then some n else acc)
    none

/-- `createVariableCompletionItems` (`document`/`ast` enter as the
`positionAt` oracle and the list of the stylesheet's top-level children;
`astChildren = none` is a `null` ast). -/
def createVariableCompletionItems (positionAt : Nat → Position)
    (gdp : Str → Option Str → Str) (colorOf : Str → Option Str) (limitStr : Str → Str)
    (astChildren : Option (List INodeChild)) (symbols : List IDocumentSymbols)
    (filepath : Str) (imports : List Str) (settings : ISettings) : List CompletionItem :=
  let isOnlyUse :=
    match astChildren with
    | none => true
    | some children => !(children.any (fun child => child.type = NodeType.Import))
  let lastUse :=
    astChildren.bind (fun children => lastUseOf (children.filter (fun c => c.type = NodeType.Use)))
  symbols.flatMap (fun symbol =>
    let isImplicitlyImport := isImplicitly symbol.document filepath imports
    let symbolsPath :=
      if isImplicitlyImport then symbol.filepath
      else symbol.document.map (fun d => jsReplace d ("file:".data) [])
    let fsPath := gdp (uriToFsPath filepath)
      (match symbolsPath with
       | some s => if jsTruthyStr s then some (uriToFsPath s) else none
       | none => none)
    symbol.variables.map (fun variable1 =>
      let color := colorOf (jsOrEmpty variable1.value)
      let completionKind :=
        if color.isSome then CompletionItemKind.Color else CompletionItemKind.Variable
      let detailPath0 := stripModuleScss (jsNormalize fsPath)
      let detailPath :=
        if isImplicitlyImport && jsTruthyOptStr settings.implicitlyLabel && !isOnlyUse then
          (settings.implicitlyLabel.getD []) ++ " ".data ++ detailPath0
        else detailPath0
      let detailText :=
        match variable1.mixin with
        | some m =>
          if jsTruthyStr m then "argument from ".data ++ m ++ ", ".data ++ detailPath
          else detailPath
        | none => detailPath
      { label := variable1.name
        kind := completionKind
        detail := detailText
        documentation := limitStr (match color with
          | some c => c
          | none => jsOrEmpty variable1.value)
        additionalTextEdits :=
          if isOnlyUse then
            match lastUse with
            | some lu => [createUseEdit positionAt lu detailPath]
            | none => []
          else [] }))

/-- `createMixinCompletionItems`. -/
def createMixinCompletionItems (gdp : Str → Option Str → Str)
    (symbols : List IDocumentSymbols) (filepath : Str) (imports : List Str)
    (settings : ISettings) : List CompletionItem :=
  symbols.flatMap (fun symbol =>
    let isImplicitlyImport := isImplicitly symbol.document filepath imports
    let fsPath := gdp filepath (if isImplicitlyImport then symbol.filepath else symbol.document)
    symbol.mixins.map (fun mixin1 =>
      let detailPath :=
        if isImplicitlyImport && jsTruthyOptStr settings.implicitlyLabel then
          (settings.implicitlyLabel.getD []) ++ " ".data ++ fsPath
        else fsPath
      { label := mixin1.name
        kind := CompletionItemKind.Function
        detail := detailPath
        documentation := makeMixinDocumentation mixin1
        insertText := some mixin1.name }))

/-- `createFunctionCompletionItems`. -/
def createFunctionCompletionItems (gdp : Str → Option Str → Str)
    (symbols : List IDocumentSymbols) (filepath : Str) (imports : List Str)
    (settings : ISettings) : List CompletionItem :=
  symbols.flatMap (fun symbol =>
    let isImplicitlyImport := isImplicitly symbol.document filepath imports
    let fsPath := gdp filepath (if isImplicitlyImport then symbol.filepath else symbol.document)
    symbol.functions.map (fun func =>
      let detailPath :=
        if isImplicitlyImport && jsTruthyOptStr settings.implicitlyLabel then
          (settings.implicitlyLabel.getD []) ++ " ".data ++ fsPath
        else fsPath
      { label := func.name
        kind := CompletionItemKind.Interface
        detail := detailPath
        documentation := makeMixinDocumentation func
        insertText := some func.name }))

/-! ## Helper lemmas: JavaScript `replace` on a matching prefix -/

theorem strIndexOf_of_isPrefixOf {s pat : Str} (h : pat.isPrefixOf s) :
    strIndexOf s pat = some 0 := by
  unfold strIndexOf
  simp [h]

theorem jsSubstitution_no_dollar (m b a : Str) :
    ∀ repl : Str, dollarChar ∉ repl → jsSubstitution m b a repl = repl := by
  intro repl
  induction repl with
  | nil => intro _; rfl
  | cons c r ih =>
    intro h
    have hc : c ≠ dollarChar := fun hc => h (hc ▸ List.mem_cons_self c r)
    have hr : dollarChar ∉ r := fun hr => h (List.mem_cons_of_mem c hr)
    unfold jsSubstitution
    simp [hc, ih hr]

theorem jsReplace_of_prefix {s pat : Str} (repl : Str) (h : pat.isPrefixOf s)
    (hd : dollarChar ∉ repl) : jsReplace s pat repl = repl ++ s.drop pat.length := by
  unfold jsReplace
  rw [strIndexOf_of_isPrefixOf h]
  simp [jsSubstitution_no_dollar _ _ _ repl hd]

/-- Claim C6: the spec demands that an alias with an empty substitution
list behave as "no match" (plain-relative fallback).  The code instead
indexes the empty list, coerces the resulting `undefined` to the text
`undefined` inside `String.replace` and resolves that against the config
directory — evaluated here at the failing input
`resolveAliasedPath("@ui/button", "/proj/src/a.scss", cfg)` with
`cfg = { filepath: /proj/tsconfig.json, paths: [@ui/ → []] }`: the result
is `/proj/undefinedbutton`, not the plain-relative
`/proj/src/@ui/button`. -/
theorem claim6_empty_substitution_bug :
    resolveAliasedPath ("/".data) ("@ui/button".data) ("/proj/src/a.scss".data)
        (some ⟨"/proj/tsconfig.json".data, some [⟨"@ui/".data, []⟩]⟩)
      = "/proj/undefinedbutton".data
    ∧ resolveAliasedPath ("/".data) ("@ui/button".data) ("/proj/src/a.scss".data)
        (some ⟨"/proj/tsconfig.json".data, some [⟨"@ui/".data, []⟩]⟩)
      ≠ jsResolve2 ("/".data) (jsDirname ("/proj/src/a.scss".data)) ("@ui/button".data) := by
  decide

/-- Claim C1, counterexample: the matched prefix is not replaced by the
substitution candidate verbatim — JavaScript `replace` interprets `$`
sequences in the candidate.  With alias `@u` and candidate `$&x`,
resolving `@u/b` yields `/p/@ux/b` (`$&` re-inserts the matched alias),
not the claimed `/p/$&x/b`. -/
theorem claim1_alias_resolution_counterexample :
    resolveAliasedPath ("/".data) ("@u/b".data) ("/d/f.scss".data)
        (some ⟨"/p/t.json".data, some [⟨"@u".data, ["$&x".data]⟩]⟩)
      = "/p/@ux/b".data
    ∧ ("/p/@ux/b".data : Str)
      ≠ jsResolve2 ("/".data) (jsDirname ("/p/t.json".data)) ("$&x/b".data) := by
  decide

/-- Claim C1, amended: if no config is associated or no alias prefix
matches (first match wins, declaration order), the import path resolves
as a plain relative path against the importing document's directory;
otherwise the first matching alias's first substitution candidate —
provided it exists and contains no `$` (JavaScript `replace` interprets
`$` sequences) — replaces the matched prefix and the result resolves
against the config file's directory.  With aliases
`[@ui/* → [src/ui/], @/* → [src/]]` (wildcards stripped as by
`parseTsConfig`), resolving `@ui/button` uses the first alias and yields
`/proj/src/ui/button` from any importer. -/
theorem claim1_alias_resolution_amended :
    ∀ cwd fsPath documentPath : Str, ∀ cfg : Option ITsConfig,
      (((cfg.bind (fun c => c.paths)).getD []).find?
          (fun ps => ps.alias.isPrefixOf fsPath) = none →
        resolveAliasedPath cwd fsPath documentPath cfg
          = jsResolve2 cwd (jsDirname documentPath) fsPath)
      ∧ (∀ c shorthand sub rest, cfg = some c →
          ((c.paths.getD []).find? (fun ps => ps.alias.isPrefixOf fsPath)
            = some shorthand) →
          shorthand.paths = sub :: rest → dollarChar ∉ sub →
          resolveAliasedPath cwd fsPath documentPath cfg
            = jsResolve2 cwd (jsDirname c.filepath)
                (sub ++ fsPath.drop shorthand.alias.length))
      ∧ resolveAliasedPath cwd ("@ui/button".data) documentPath
          (some ⟨"/proj/tsconfig.json".data,
            some [⟨stripTrailingStar ("@ui/*".data), ["src/ui/".data]⟩,
                  ⟨stripTrailingStar ("@/*".data), ["src/".data]⟩]⟩)
          = "/proj/src/ui/button".data := by
  intro cwd fsPath documentPath cfg
  refine ⟨?_, ?_, ?_⟩
  · intro h
    cases cfg with
    | none => rfl
    | some c => simp only [resolveAliasedPath, Option.bind_some] at h ⊢; rw [h]
  · intro c shorthand sub rest hcfg hfind hpaths hd
    subst hcfg
    have hpre : shorthand.alias.isPrefixOf fsPath := by
      have := List.find?_some hfind
      simpa using this
    have hb : (((some c : Option ITsConfig)).bind fun c => c.paths).getD []
        = c.paths.getD [] := rfl
    simp only [resolveAliasedPath, hb, hfind]
    simp only [hpaths, List.head?_cons]
    rw [show jsToString (some sub) = sub from rfl,
      jsReplace_of_prefix sub hpre hd]
  · rfl

/-- Witness for `claim1_alias_resolution_amended` at concrete inputs:
no-config fallback and a successful `@ui/` match. -/
theorem claim1_alias_resolution_witness :
    (resolveAliasedPath ("/".data) ("lib/a".data) ("/proj/src/x.scss".data) none
      = jsResolve2 ("/".data) (jsDirname ("/proj/src/x.scss".data)) ("lib/a".data))
    ∧ (resolveAliasedPath ("/".data) ("@ui/button".data) ("/proj/src/x.scss".data)
        (some ⟨"/proj/tsconfig.json".data, some [⟨"@ui/".data, ["src/ui/".data]⟩]⟩)
      = jsResolve2 ("/".data) (jsDirname ("/proj/tsconfig.json".data))
          ("src/ui/".data ++ ("@ui/button".data).drop ("@ui/".data).length)) :=
  ⟨(claim1_alias_resolution_amended ("/".data) ("lib/a".data)
      ("/proj/src/x.scss".data) none).1 (by decide),
   (claim1_alias_resolution_amended ("/".data) ("@ui/button".data)
      ("/proj/src/x.scss".data)
      (some ⟨"/proj/tsconfig.json".data, some [⟨"@ui/".data, ["src/ui/".data]⟩]⟩)).2.1
      ⟨"/proj/tsconfig.json".data, some [⟨"@ui/".data, ["src/ui/".data]⟩]⟩
      ⟨"@ui/".data, ["src/ui/".data]⟩ ("src/ui/".data) [] rfl (by decide) rfl (by decide)⟩

/-! ## Helper lemmas: JavaScript `Map` operations -/

theorem mapGet_nil {α : Type} (q : Str) : mapGet ([] : List (Str × α)) q = none := rfl

theorem mapGet_cons {α : Type} (e : Str × α) (t : List (Str × α)) (q : Str) :
    mapGet (e :: t) q = if e.1 = q then some e.2 else mapGet t q := by
  by_cases h : e.1 = q
  · unfold mapGet
    rw [List.find?_cons_of_pos _ (by simpa using h)]
    simp [h]
  · unfold mapGet
    rw [List.find?_cons_of_neg _ (by simpa using h)]
    rw [if_neg h]

theorem mapGet_append {α : Type} (m1 m2 : List (Str × α)) (q : Str) :
    mapGet (m1 ++ m2) q = (mapGet m1 q).or (mapGet m2 q) := by
  induction m1 with
  | nil =>
    rw [List.nil_append, mapGet_nil]
    rfl
  | cons e t ih =>
    rw [List.cons_append, mapGet_cons, mapGet_cons]
    by_cases h : e.1 = q
    · rw [if_pos h, if_pos h]
      rfl
    · rw [if_neg h, if_neg h, ih]

theorem mapGet_map_update_self {α : Type} (m : List (Str × α)) (k : Str) (v : α)
    (h : m.any (fun e => e.1 = k) = true) :
    mapGet (m.map (fun e => if e.1 = k then (k, v) else e)) k = some v := by
  induction m with
  | nil => exact absurd h (by simp)
  | cons e t ih =>
    rw [List.map_cons]
    by_cases he : e.1 = k
    · rw [if_pos he, mapGet_cons, if_pos rfl]
    · rw [if_neg he, mapGet_cons, if_neg he]
      refine ih ?_
      rw [List.any_cons] at h
      cases hor : (decide (e.1 = k)) with
      | true => exact absurd (of_decide_eq_true hor) he
      | false =>
        rw [hor, Bool.false_or] at h
        exact h

theorem mapGet_map_update_ne {α : Type} (m : List (Str × α)) (k q : Str) (v : α)
    (h : q ≠ k) :
    mapGet (m.map (fun e => if e.1 = k then (k, v) else e)) q = mapGet m q := by
  induction m with
  | nil => rfl
  | cons e t ih =>
    rw [List.map_cons, mapGet_cons, mapGet_cons]
    by_cases he : e.1 = k
    · rw [if_pos he,
        if_neg (show ¬ ((k, v).1 = q) from fun hh => h hh.symm),
        if_neg (show ¬ e.1 = q from by rw [he]; exact fun hh => h hh.symm)]
      exact ih
    · rw [if_neg he]
      by_cases heq : e.1 = q
      · rw [if_pos heq, if_pos heq]
      · rw [if_neg heq, if_neg heq]
        exact ih

theorem mapGet_mapSet {α : Type} (m : List (Str × α)) (k q : Str) (v : α) :
    mapGet (mapSet m k v) q = if q = k then some v else mapGet m q := by
  unfold mapSet
  by_cases hany : m.any (fun e => e.1 = k) = true
  · rw [if_pos hany]
    by_cases hq : q = k
    · subst hq
      rw [if_pos rfl]
      exact mapGet_map_update_self m q v hany
    · rw [if_neg hq]
      exact mapGet_map_update_ne m k q v hq
  · rw [if_neg hany, mapGet_append]
    by_cases hq : q = k
    · subst hq
      rw [if_pos rfl]
      have hnone : mapGet m q = none := by
        unfold mapGet
        rw [List.find?_eq_none.2]
        · rfl
        · intro e he
          simp only [decide_eq_true_eq]
          intro hc
          exact hany (List.any_eq_true.2 ⟨e, he, by simp [hc]⟩)
      rw [hnone, mapGet_cons]
      show (Option.or none (if (q, v).1 = q then some (q, v).2 else mapGet [] q)) = some v
      rw [if_pos rfl]
      rfl
    · rw [if_neg hq]
      have h2 : mapGet [(k, v)] q = none := by
        rw [mapGet_cons, if_neg (show ¬ ((k, v).1 = q) from fun hh => hq hh.symm), mapGet_nil]
      rw [h2]
      cases mapGet m q <;> rfl

theorem mapGet_mapDelete {α : Type} (m : List (Str × α)) (k q : Str) :
    mapGet (mapDelete m k) q = if q = k then none else mapGet m q := by
  induction m with
  | nil =>
    unfold mapDelete
    rw [List.filter_nil, mapGet_nil, ite_self]
  | cons e t ih =>
    unfold mapDelete at ih ⊢
    rw [List.filter_cons]
    by_cases he : e.1 = k
    · have hpa : (decide (e.1 ≠ k)) = false := by simp [he]
      simp only [hpa, Bool.false_eq_true, if_false]
      rw [ih, mapGet_cons]
      by_cases hq : q = k
      · rw [if_pos hq, if_pos hq]
      · rw [if_neg hq, if_neg hq,
          if_neg (show ¬ e.1 = q from by rw [he]; exact fun hh => hq hh.symm)]
    · have hpa : (decide (e.1 ≠ k)) = true := by simp [he]
      simp only [hpa, if_true]
      rw [mapGet_cons, mapGet_cons, ih]
      by_cases heq : e.1 = q
      · rw [if_pos heq, if_pos heq,
          if_neg (show ¬ q = k from fun hh => he (heq.trans hh))]
      · rw [if_neg heq, if_neg heq]

/-- Claim C9: `updateTsConfigFile` replaces only the alias table of the
already-stored entry for the config (keeping its `filepath`), and leaves
every document symbol table, every other config entry and every
document-to-config association unchanged. -/
theorem claim9_config_update_frame :
    ∀ (st : StorageService) (tsConfigPath : Str) (newTsConfig oldTsConfig : ITsConfig),
      st.getTsConfig (fsPathToUri tsConfigPath) = some oldTsConfig →
      (updateTsConfigFile st tsConfigPath newTsConfig).scssDocuments = st.scssDocuments
      ∧ (updateTsConfigFile st tsConfigPath newTsConfig).tsConfigsAssociations
          = st.tsConfigsAssociations
      ∧ (updateTsConfigFile st tsConfigPath newTsConfig).getTsConfig (fsPathToUri tsConfigPath)
          = some { oldTsConfig with paths := newTsConfig.paths }
      ∧ ∀ u, u ≠ fsPathToUri tsConfigPath →
          (updateTsConfigFile st tsConfigPath newTsConfig).getTsConfig u
            = st.getTsConfig u := by
  intro st tsConfigPath newTsConfig oldTsConfig h
  simp only [updateTsConfigFile, h]
  refine ⟨rfl, rfl, ?_, ?_⟩
  · unfold StorageService.getTsConfig StorageService.setTsConfig
    exact (mapGet_mapSet _ _ _ _).trans (if_pos rfl)
  · intro u hu
    unfold StorageService.getTsConfig StorageService.setTsConfig
    exact (mapGet_mapSet _ _ _ _).trans (if_neg hu)

/-- Witness for `claim9_config_update_frame` on a one-config store. -/
theorem claim9_config_update_frame_witness :
    ((⟨[], [(fsPathToUri ("/t/tsconfig.json".data), ⟨"/t/tsconfig.json".data, none⟩)],
        []⟩ : StorageService).getTsConfig (fsPathToUri ("/t/tsconfig.json".data))
      = some (⟨"/t/tsconfig.json".data, none⟩ : ITsConfig))
    ∧ ((updateTsConfigFile
        ⟨[], [(fsPathToUri ("/t/tsconfig.json".data), ⟨"/t/tsconfig.json".data, none⟩)], []⟩
        ("/t/tsconfig.json".data)
        ⟨"/t/tsconfig.json".data, some []⟩).getTsConfig
          (fsPathToUri ("/t/tsconfig.json".data))
      = some (⟨"/t/tsconfig.json".data, some []⟩ : ITsConfig)) :=
  ⟨by decide,
    (claim9_config_update_frame
      ⟨[], [(fsPathToUri ("/t/tsconfig.json".data), ⟨"/t/tsconfig.json".data, none⟩)], []⟩
      ("/t/tsconfig.json".data)
      ⟨"/t/tsconfig.json".data, some []⟩
      ⟨"/t/tsconfig.json".data, none⟩ (by decide)).2.2.1⟩

/-! ## Helper lemmas: the association fold of the config scanner -/

theorem assocFold_frame (test : Str → Bool) (uri : Str) :
    ∀ (l : List Str) (s : StorageService),
      ((l.foldl
        (fun s x =>
          if test x then
            (if jsTruthyStr uri then s.associate x uri else s.desociate x)
          else s) s)).tsConfigs = s.tsConfigs
      ∧ ((l.foldl
        (fun s x =>
          if test x then
            (if jsTruthyStr uri then s.associate x uri else s.desociate x)
          else s) s)).scssDocuments = s.scssDocuments := by
  intro l
  induction l with
  | nil => intro s; exact ⟨rfl, rfl⟩
  | cons x t ih =>
    intro s
    rw [List.foldl_cons]
    have hstep :
        ((if test x then
            (if jsTruthyStr uri then s.associate x uri else s.desociate x)
          else s)).tsConfigs = s.tsConfigs
        ∧ ((if test x then
            (if jsTruthyStr uri then s.associate x uri else s.desociate x)
          else s)).scssDocuments = s.scssDocuments := by
      by_cases h : test x = true
      · rw [if_pos h]
        by_cases h2 : jsTruthyStr uri = true
        · rw [if_pos h2]; exact ⟨rfl, rfl⟩
        · rw [if_neg h2]; exact ⟨rfl, rfl⟩
      · rw [if_neg h]; exact ⟨rfl, rfl⟩
    exact ⟨((ih _).1).trans hstep.1, ((ih _).2).trans hstep.2⟩

theorem assocFold_preserve (test : Str → Bool) (uri : Str)
    (hu : jsTruthyStr uri = true) :
    ∀ (l : List Str) (s : StorageService) (k : Str),
      mapGet s.tsConfigsAssociations k = some uri →
      mapGet ((l.foldl
        (fun s x =>
          if test x then
            (if jsTruthyStr uri then s.associate x uri else s.desociate x)
          else s) s)).tsConfigsAssociations k = some uri := by
  intro l
  induction l with
  | nil => intro s k h; exact h
  | cons x t ih =>
    intro s k h
    rw [List.foldl_cons]
    refine ih _ k ?_
    by_cases hx : test x = true
    · rw [if_pos hx, if_pos hu]
      show mapGet (mapSet s.tsConfigsAssociations x uri) k = some uri
      rw [mapGet_mapSet]
      by_cases hk : k = x
      · rw [if_pos hk]
      · rw [if_neg hk]; exact h
    · rw [if_neg hx]; exact h

theorem assocFold_establish (test : Str → Bool) (uri : Str)
    (hu : jsTruthyStr uri = true) :
    ∀ (l : List Str) (s : StorageService) (k : Str),
      k ∈ l → test k = true →
      mapGet ((l.foldl
        (fun s x =>
          if test x then
            (if jsTruthyStr uri then s.associate x uri else s.desociate x)
          else s) s)).tsConfigsAssociations k = some uri := by
  intro l
  induction l with
  | nil => intro s k h; exact absurd h (List.not_mem_nil k)
  | cons x t ih =>
    intro s k hmem htest
    rw [List.foldl_cons]
    rcases List.mem_cons.1 hmem with hx | ht
    · subst hx
      refine assocFold_preserve test uri hu t _ k ?_
      rw [if_pos htest, if_pos hu]
      show mapGet (mapSet s.tsConfigsAssociations k uri) k = some uri
      rw [mapGet_mapSet, if_pos rfl]
    · exact ih _ k ht htest

theorem fsPathToUri_truthy (p : Str) : jsTruthyStr (fsPathToUri p) = true := by
  unfold jsTruthyStr fsPathToUri uriFile
  exact decide_eq_true
    (List.append_ne_nil_of_left_ne_nil (by decide) _)

/-- Claim C2: after `addTsConfigFile`, every document key of the Workspace
Index that passes the `isDescendant` test against the new config's
directory is associated to the new config entry:
`getAssociatedTsConfig` returns exactly the parsed config. -/
theorem claim2_config_create_association :
    ∀ (cwd : Str) (st : StorageService) (tsConfigPath : Str) (tsConfig : ITsConfig)
      (k : Str),
      k ∈ st.keys →
      isDescendant cwd k (jsDirname tsConfigPath) = true →
      (addTsConfigFile cwd st tsConfigPath tsConfig).getAssociatedTsConfig k
        = some tsConfig := by
  intro cwd st tsConfigPath tsConfig k hmem htest
  have heq : addTsConfigFile cwd st tsConfigPath tsConfig
      = (st.keys).foldl
          (fun s scssUri =>
            if isDescendant cwd scssUri (jsDirname tsConfigPath) then
              (if jsTruthyStr (fsPathToUri tsConfigPath) then
                s.associate scssUri (fsPathToUri tsConfigPath)
              else s.desociate scssUri)
            else s)
          (st.setTsConfig (fsPathToUri tsConfigPath) tsConfig) := rfl
  have hassoc :
      mapGet (addTsConfigFile cwd st tsConfigPath tsConfig).tsConfigsAssociations k
        = some (fsPathToUri tsConfigPath) := by
    rw [heq]
    exact assocFold_establish (fun x => isDescendant cwd x (jsDirname tsConfigPath))
      (fsPathToUri tsConfigPath) (fsPathToUri_truthy _) st.keys _ k hmem htest
  have hcfg :
      mapGet (addTsConfigFile cwd st tsConfigPath tsConfig).tsConfigs
        (fsPathToUri tsConfigPath) = some tsConfig := by
    rw [heq, (assocFold_frame (fun x => isDescendant cwd x (jsDirname tsConfigPath))
      (fsPathToUri tsConfigPath) st.keys _).1]
    show mapGet (mapSet st.tsConfigs (fsPathToUri tsConfigPath) tsConfig)
      (fsPathToUri tsConfigPath) = some tsConfig
    rw [mapGet_mapSet, if_pos rfl]
  unfold StorageService.getAssociatedTsConfig
  rw [hassoc]
  show (if jsTruthyStr (fsPathToUri tsConfigPath) = true then
      mapGet (addTsConfigFile cwd st tsConfigPath tsConfig).tsConfigs
        (fsPathToUri tsConfigPath)
    else none) = some tsConfig
  rw [if_pos (fsPathToUri_truthy _), hcfg]

/-- Witness for `claim2_config_create_association`: one indexed document
`/proj/src/a.scss` under the new config `/proj/tsconfig.json`. -/
theorem claim2_config_create_association_witness :
    (("/proj/src/a.scss".data : Str)
        ∈ (⟨[(("/proj/src/a.scss".data : Str), { document := none })], [], []⟩
            : StorageService).keys
      ∧ isDescendant ("/".data) ("/proj/src/a.scss".data)
          (jsDirname ("/proj/tsconfig.json".data)) = true)
    ∧ (addTsConfigFile ("/".data)
        ⟨[(("/proj/src/a.scss".data : Str), { document := none })], [], []⟩
        ("/proj/tsconfig.json".data)
        ⟨"/proj/tsconfig.json".data, some []⟩).getAssociatedTsConfig
        ("/proj/src/a.scss".data)
      = some ⟨"/proj/tsconfig.json".data, some []⟩ :=
  ⟨⟨by decide, by decide⟩,
    claim2_config_create_association ("/".data) _ _ _ _ (by decide) (by decide)⟩

/-- Claim C8, counterexample: the map-level invariant fails in a state
reachable through scanner entry points alone.  Scan `/proj/a.scss`, add
config `/proj/tsconfig.json` (which associates the document), then delete
it with workspace root `/`: `deleteTsConfigFile` re-tests descendants
against the config *file path*, matches nothing, and leaves the
association dangling — its target is recorded in the association map but
absent from the config map (while `getAssociatedTsConfig` already behaves
as if there were no association). -/
theorem claim8_association_invariant_counterexample :
    ((scanScssFiles true [(("/proj/a.scss".data : Str), {})] ["/proj/a.scss".data]
        ⟨[], [], []⟩).bind
      (fun r =>
        (deleteTsConfigFile ("/proj".data) (fun _ => false)
          (addTsConfigFile ("/proj".data) r.1 ("/proj/tsconfig.json".data)
            ⟨"/proj/tsconfig.json".data, some []⟩)
          ("/proj/tsconfig.json".data) ("/".data)).map
        (fun st =>
          (mapGet st.tsConfigsAssociations (uriFile ("/proj/a.scss".data)),
           mapGet st.tsConfigs (fsPathToUri ("/proj/tsconfig.json".data)),
           st.getAssociatedTsConfig (uriFile ("/proj/a.scss".data))))))
      = some (some (fsPathToUri ("/proj/tsconfig.json".data)), none, none) := by
  decide

/-- Claim C8, amended: the syntactic invariant (every association target
exists in the config map) does not hold of all reachable states, but a
dangling association is behaviourally equivalent to no association:
`getAssociatedTsConfig` returns nothing and alias resolution falls back to
plain relative resolution against the importing document's directory. -/
theorem claim8_association_invariant_amended :
    ∀ (st : StorageService) (d u : Str),
      mapGet st.tsConfigsAssociations d = some u →
      mapGet st.tsConfigs u = none →
      st.getAssociatedTsConfig d = none
      ∧ ∀ cwd p f, resolveAliasedPath cwd p f (st.getAssociatedTsConfig d)
          = jsResolve2 cwd (jsDirname f) p := by
  intro st d u h1 h2
  have hga : st.getAssociatedTsConfig d = none := by
    unfold StorageService.getAssociatedTsConfig
    rw [h1]
    show (if jsTruthyStr u = true then mapGet st.tsConfigs u else none) = none
    by_cases ht : jsTruthyStr u = true
    · rw [if_pos ht, h2]
    · rw [if_neg ht]
  refine ⟨hga, ?_⟩
  intro cwd p f
  rw [hga]
  rfl

/-- Witness for `claim8_association_invariant_amended` on a store holding
one dangling association. -/
theorem claim8_association_invariant_witness :
    ((⟨[], [], [(("file:///d.scss".data : Str), ("file:///t/tsconfig.json".data : Str))]⟩
        : StorageService).getAssociatedTsConfig ("file:///d.scss".data) = none)
    ∧ resolveAliasedPath ("/".data) ("p/q".data) ("/x/f.scss".data)
        ((⟨[], [], [(("file:///d.scss".data : Str), ("file:///t/tsconfig.json".data : Str))]⟩
          : StorageService).getAssociatedTsConfig ("file:///d.scss".data))
      = jsResolve2 ("/".data) (jsDirname ("/x/f.scss".data)) ("p/q".data) :=
  ⟨(claim8_association_invariant_amended
      ⟨[], [], [(("file:///d.scss".data : Str), ("file:///t/tsconfig.json".data : Str))]⟩
      ("file:///d.scss".data) ("file:///t/tsconfig.json".data)
      (by decide) (by decide)).1,
   (claim8_association_invariant_amended
      ⟨[], [], [(("file:///d.scss".data : Str), ("file:///t/tsconfig.json".data : Str))]⟩
      ("file:///d.scss".data) ("file:///t/tsconfig.json".data)
      (by decide) (by decide)).2 ("/".data) ("p/q".data) ("/x/f.scss".data)⟩

/-- Claim C7, counterexample: with the implicitly-label setting enabled
and a current document with zero `@use`/`@import` statements (empty import
list), a neighbour's *mixin* completion item does carry the label — only
the variable items skip it.  Here `getDocumentPath` is instantiated with
the stand-in that returns the symbol path. -/
theorem claim7_implicit_label_counterexample :
    (createMixinCompletionItems (fun _ sp => jsOrEmpty sp)
      [{ document := some ("/other.scss".data), filepath := some ("/other.scss".data),
         mixins := [{ name := "m".data }] }]
      ("/cur.scss".data) [] { implicitlyLabel := some ("implicitly".data) }).map
        (fun item => item.detail)
      = ["implicitly /other.scss".data] := by
  decide

/-- Claim C7, amended: with the implicitly-label setting enabled and a
current document whose stylesheet has no legacy `@import` children (in
particular one with zero `@use`/`@import` statements), *variable*
completion items are produced exactly as if the label setting were off
(no neighbour is flagged); but *mixin* items and *function* items for an
implicitly imported neighbour always carry the label prefix, regardless
of the current document's import statements. -/
theorem claim7_implicit_label_amended :
    (∀ (positionAt : Nat → Position) (gdp : Str → Option Str → Str)
      (colorOf : Str → Option Str) (limitStr : Str → Str)
      (astChildren : Option (List INodeChild)) (symbols : List IDocumentSymbols)
      (filepath : Str) (imports : List Str) (s : ISettings) (lbl : Option Str),
      (∀ ch, astChildren = some ch → ∀ c ∈ ch, c.type ≠ NodeType.Import) →
      createVariableCompletionItems positionAt gdp colorOf limitStr astChildren symbols
          filepath imports { s with implicitlyLabel := lbl }
        = createVariableCompletionItems positionAt gdp colorOf limitStr astChildren symbols
          filepath imports { s with implicitlyLabel := none })
    ∧ (∀ (gdp : Str → Option Str → Str) (sym : IDocumentSymbols) (filepath : Str)
      (imports : List Str) (s : ISettings) (lbl : Str),
      lbl ≠ [] →
      isImplicitly sym.document filepath imports = true →
      (createMixinCompletionItems gdp [sym] filepath imports
          { s with implicitlyLabel := some lbl }).map (fun item => item.detail)
        = sym.mixins.map (fun _ => lbl ++ " ".data ++ gdp filepath sym.filepath))
    ∧ (∀ (gdp : Str → Option Str → Str) (sym : IDocumentSymbols) (filepath : Str)
      (imports : List Str) (s : ISettings) (lbl : Str),
      lbl ≠ [] →
      isImplicitly sym.document filepath imports = true →
      (createFunctionCompletionItems gdp [sym] filepath imports
          { s with implicitlyLabel := some lbl }).map (fun item => item.detail)
        = sym.functions.map (fun _ => lbl ++ " ".data ++ gdp filepath sym.filepath)) := by
  refine ⟨?_, ?_, ?_⟩
  · intro pa gdp colorOf limitStr astChildren symbols filepath imports s lbl hno
    cases astChildren with
    | none =>
      simp only [createVariableCompletionItems, Bool.not_true, Bool.and_false,
        Bool.false_eq_true, if_false]
    | some ch =>
      have hanyf : ch.any (fun child => child.type = NodeType.Import) = false :=
        List.any_eq_false.2 (fun c hc => by simpa using hno ch rfl c hc)
      simp only [createVariableCompletionItems, hanyf, Bool.not_false, Bool.not_true,
        Bool.and_false, Bool.false_eq_true, if_false]
  · intro gdp sym filepath imports s lbl hl himpl
    have ht : jsTruthyOptStr (some lbl) = true := by
      unfold jsTruthyOptStr jsTruthyStr
      exact decide_eq_true hl
    simp only [createMixinCompletionItems, List.flatMap_cons, List.flatMap_nil,
      List.append_nil, himpl, if_pos, ht, Bool.and_true, Bool.true_and, if_true,
      List.map_map]
    rfl
  · intro gdp sym filepath imports s lbl hl himpl
    have ht : jsTruthyOptStr (some lbl) = true := by
      unfold jsTruthyOptStr jsTruthyStr
      exact decide_eq_true hl
    simp only [createFunctionCompletionItems, List.flatMap_cons, List.flatMap_nil,
      List.append_nil, himpl, if_pos, ht, Bool.and_true, Bool.true_and, if_true,
      List.map_map]
    rfl

/-- Witness for `claim7_implicit_label_amended`: a null ast (no `@import`
children) for the variable part, a one-mixin implicit neighbour for the
mixin part, and a one-function implicit neighbour for the function
part. -/
theorem claim7_implicit_label_witness :
    (createVariableCompletionItems (fun _ => ⟨0, 0⟩) (fun _ sp => jsOrEmpty sp)
        (fun _ => none) (fun x => x) none
        [{ document := some ("/other.scss".data), filepath := some ("/other.scss".data),
           «variables» := [{ name := "v".data }] }]
        ("/cur.scss".data) [] { implicitlyLabel := some ("imp".data) }
      = createVariableCompletionItems (fun _ => ⟨0, 0⟩) (fun _ sp => jsOrEmpty sp)
        (fun _ => none) (fun x => x) none
        [{ document := some ("/other.scss".data), filepath := some ("/other.scss".data),
           «variables» := [{ name := "v".data }] }]
        ("/cur.scss".data) [] { implicitlyLabel := none })
    ∧ ((createMixinCompletionItems (fun _ sp => jsOrEmpty sp)
        [{ document := some ("/other.scss".data), filepath := some ("/other.scss".data),
           mixins := [{ name := "m".data }] }]
        ("/cur.scss".data) [] { implicitlyLabel := some ("imp".data) }).map
          (fun item => item.detail)
      = ["imp /other.scss".data])
    ∧ ((createFunctionCompletionItems (fun _ sp => jsOrEmpty sp)
        [{ document := some ("/other.scss".data), filepath := some ("/other.scss".data),
           functions := [{ name := "f".data }] }]
        ("/cur.scss".data) [] { implicitlyLabel := some ("imp".data) }).map
          (fun item => item.detail)
      = ["imp /other.scss".data]) :=
  ⟨claim7_implicit_label_amended.1 (fun _ => ⟨0, 0⟩) (fun _ sp => jsOrEmpty sp)
      (fun _ => none) (fun x => x) none
      [{ document := some ("/other.scss".data), filepath := some ("/other.scss".data),
         «variables» := [{ name := "v".data }] }]
      ("/cur.scss".data) [] {} (some ("imp".data))
      (fun ch h => Option.noConfusion h),
   claim7_implicit_label_amended.2.1 (fun _ sp => jsOrEmpty sp)
      { document := some ("/other.scss".data), filepath := some ("/other.scss".data),
        mixins := [{ name := "m".data }] }
      ("/cur.scss".data) [] {} ("imp".data) (by decide) (by decide),
   claim7_implicit_label_amended.2.2 (fun _ sp => jsOrEmpty sp)
      { document := some ("/other.scss".data), filepath := some ("/other.scss".data),
        functions := [{ name := "f".data }] }
      ("/cur.scss".data) [] {} ("imp".data) (by decide) (by decide)⟩

/-! ## Normalized absolute paths as rendered segment lists -/

/-- A well-formed path segment: nonempty, no slash, not `.` or `..`. -/
def validSeg (s : Str) : Prop :=
  s ≠ [] ∧ '/' ∉ s ∧ s ≠ ['.'] ∧ s ≠ ['.', '.']

instance : DecidablePred validSeg := fun s => by
  unfold validSeg
  infer_instance

/-- The normalized absolute path with the given segments. -/
def renderAbs (segs : List Str) : Str := '/' :: interSlash segs

theorem interSlash_ne_nil {segs : List Str} (h : ∀ s ∈ segs, validSeg s)
    (hne : segs ≠ []) : interSlash segs ≠ [] := by
  cases segs with
  | nil => exact absurd rfl hne
  | cons s rest =>
    have hs : s ≠ [] := (h s (List.mem_cons_self s rest)).1
    cases rest with
    | nil => exact hs
    | cons t rest2 =>
      show s ++ '/' :: interSlash (t :: rest2) ≠ []
      intro hc
      exact hs (List.append_eq_nil.1 hc).1

theorem interSlash_append_singleton (a : List Str) (s : Str) :
    interSlash (a ++ [s]) = if a = [] then s else interSlash a ++ '/' :: s := by
  induction a with
  | nil => simp [interSlash]
  | cons x t ih =>
    rw [if_neg (List.cons_ne_nil x t)]
    cases t with
    | nil => simp [interSlash]
    | cons y t2 =>
      show x ++ '/' :: interSlash ((y :: t2) ++ [s])
        = (x ++ '/' :: interSlash (y :: t2)) ++ '/' :: s
      rw [ih, if_neg (List.cons_ne_nil y t2)]
      simp

theorem splitChar_cons (sep c : Char) (t : Str) :
    splitChar sep (c :: t)
      = match splitChar sep t with
        | [] => [[c]]
        | cur :: rest => if c = sep then [] :: cur :: rest else (c :: cur) :: rest := rfl

theorem splitChar_ne_nil (sep : Char) (s : Str) : splitChar sep s ≠ [] := by
  induction s with
  | nil => exact List.cons_ne_nil _ _
  | cons c t ih =>
    rw [splitChar_cons]
    rcases hsp : splitChar sep t with _ | ⟨cur, rest⟩
    · exact absurd hsp ih
    · show (if c = sep then [] :: cur :: rest else (c :: cur) :: rest) ≠ []
      by_cases hc : c = sep
      · rw [if_pos hc]; exact List.cons_ne_nil _ _
      · rw [if_neg hc]; exact List.cons_ne_nil _ _

theorem splitChar_cons_sep (sep : Char) (t : Str) :
    splitChar sep (sep :: t) = [] :: splitChar sep t := by
  rw [splitChar_cons]
  rcases hsp : splitChar sep t with _ | ⟨cur, rest⟩
  · exact absurd hsp (splitChar_ne_nil sep t)
  · show (if sep = sep then [] :: cur :: rest else (sep :: cur) :: rest) = [] :: cur :: rest
    rw [if_pos rfl]

theorem splitChar_cons_ne (sep c : Char) (t : Str) (hc : c ≠ sep) :
    splitChar sep (c :: t)
      = (c :: (splitChar sep t).headI) :: (splitChar sep t).tail := by
  rw [splitChar_cons]
  rcases hsp : splitChar sep t with _ | ⟨cur, rest⟩
  · exact absurd hsp (splitChar_ne_nil sep t)
  · show (if c = sep then [] :: cur :: rest else (c :: cur) :: rest) = _
    rw [if_neg hc]
    rfl

theorem splitChar_chunk (sep : Char) :
    ∀ (s : Str), (∀ c ∈ s, c ≠ sep) →
      ∀ t, splitChar sep (s ++ sep :: t) = s :: splitChar sep t := by
  intro s
  induction s with
  | nil =>
    intro _ t
    rw [List.nil_append, splitChar_cons_sep]
  | cons c s2 ih =>
    intro h t
    have hc : c ≠ sep := h c (List.mem_cons_self c s2)
    have hs2 : ∀ d ∈ s2, d ≠ sep := fun d hd => h d (List.mem_cons_of_mem c hd)
    rw [List.cons_append, splitChar_cons_ne sep c _ hc, ih hs2 t]
    rfl

theorem splitChar_no_sep (sep : Char) :
    ∀ (s : Str), (∀ c ∈ s, c ≠ sep) → splitChar sep s = [s] := by
  intro s
  induction s with
  | nil => intro _; rfl
  | cons c s2 ih =>
    intro h
    have hc : c ≠ sep := h c (List.mem_cons_self c s2)
    have hs2 : ∀ d ∈ s2, d ≠ sep := fun d hd => h d (List.mem_cons_of_mem c hd)
    rw [splitChar_cons_ne sep c _ hc, ih hs2]
    rfl

theorem segsOf_interSlash :
    ∀ (segs : List Str), (∀ s ∈ segs, validSeg s) → segs ≠ [] →
      (splitChar '/' (interSlash segs)).filter (fun s => s ≠ []) = segs := by
  intro segs
  induction segs with
  | nil => intro _ h; exact absurd rfl h
  | cons s rest ih =>
    intro hv _
    have hs : validSeg s := hv s (List.mem_cons_self s rest)
    have hnos : ∀ c ∈ s, c ≠ '/' := fun c hc hcs => hs.2.1 (hcs ▸ hc)
    cases rest with
    | nil =>
      show (splitChar '/' s).filter (fun s => s ≠ []) = [s]
      rw [splitChar_no_sep '/' s hnos]
      simp [List.filter, hs.1]
    | cons t rest2 =>
      show (splitChar '/' (s ++ '/' :: interSlash (t :: rest2))).filter
        (fun s => s ≠ []) = s :: t :: rest2
      rw [splitChar_chunk '/' s hnos]
      rw [List.filter_cons]
      have : (decide (s ≠ [])) = true := by simp [hs.1]
      rw [this, if_pos rfl]
      have := ih (fun x hx => hv x (List.mem_cons_of_mem s hx)) (List.cons_ne_nil t rest2)
      rw [this]

theorem segsOf_renderAbs (segs : List Str) (hv : ∀ s ∈ segs, validSeg s) :
    segsOf (renderAbs segs) = segs := by
  unfold segsOf renderAbs
  rw [splitChar_cons_sep]
  rw [List.filter_cons]
  have : (decide (([] : Str) ≠ [])) = false := by simp
  rw [this]
  simp only [Bool.false_eq_true, if_false]
  cases segs with
  | nil =>
    show (splitChar '/' []).filter (fun s => s ≠ []) = []
    rfl
  | cons s rest => exact segsOf_interSlash (s :: rest) hv (List.cons_ne_nil s rest)

theorem normSegs_valid_aux (segs : List Str) (hv : ∀ s ∈ segs, validSeg s) :
    ∀ acc, segs.foldl (normStep true) acc = segs.reverse ++ acc := by
  induction segs with
  | nil => intro acc; rfl
  | cons s rest ih =>
    intro acc
    have hs : validSeg s := hv s (List.mem_cons_self s rest)
    have hstep : normStep true acc s = s :: acc := by
      unfold normStep
      rw [if_neg hs.2.2.1, if_neg hs.2.2.2]
    rw [List.foldl_cons, hstep,
      ih (fun x hx => hv x (List.mem_cons_of_mem s hx))]
    simp

theorem normSegs_valid (segs : List Str) (hv : ∀ s ∈ segs, validSeg s) :
    normSegs true segs = segs := by
  unfold normSegs
  rw [normSegs_valid_aux segs hv []]
  simp

theorem renderAbs_head (segs : List Str) : (renderAbs segs).head? = some '/' := rfl

theorem jsResolve1_renderAbs (cwd : Str) (segs : List Str)
    (hv : ∀ s ∈ segs, validSeg s) : jsResolve1 cwd (renderAbs segs) = renderAbs segs := by
  simp only [jsResolve1]
  rw [if_pos (renderAbs_head segs)]
  rw [segsOf_renderAbs segs hv, normSegs_valid segs hv]
  cases segs with
  | nil =>
    show (if interSlash [] = [] then (['/'] : Str) else '/' :: interSlash []) = renderAbs []
    rfl
  | cons s rest =>
    have hne := interSlash_ne_nil hv (List.cons_ne_nil s rest)
    show (if interSlash (s :: rest) = [] then (['/'] : Str)
      else '/' :: interSlash (s :: rest)) = renderAbs (s :: rest)
    rw [if_neg hne]
    rfl

theorem renderAbs_inj {a b : List Str} (ha : ∀ s ∈ a, validSeg s)
    (hb : ∀ s ∈ b, validSeg s) (h : renderAbs a = renderAbs b) : a = b := by
  have := congrArg segsOf h
  rwa [segsOf_renderAbs a ha, segsOf_renderAbs b hb] at this

theorem commonLen_self_append (b e : List Str) : commonLen b (b ++ e) = b.length := by
  induction b with
  | nil => cases e <;> rfl
  | cons s rest ih =>
    show commonLen (s :: rest) (s :: (rest ++ e)) = rest.length + 1
    unfold commonLen
    rw [if_pos rfl, ih]

theorem commonLen_append_self (b e : List Str) : commonLen (b ++ e) b = b.length := by
  induction b with
  | nil => cases e <;> rfl
  | cons s rest ih =>
    show commonLen (s :: (rest ++ e)) (s :: rest) = rest.length + 1
    unfold commonLen
    rw [if_pos rfl, ih]

theorem commonLen_le_left : ∀ (a b : List Str), commonLen a b ≤ a.length := by
  intro a
  induction a with
  | nil => intro b; cases b <;> simp [commonLen]
  | cons s rest ih =>
    intro b
    cases b with
    | nil => simp [commonLen]
    | cons t brest =>
      unfold commonLen
      by_cases h : s = t
      · rw [if_pos h]
        simpa using ih brest
      · rw [if_neg h]
        simp

theorem commonLen_full_take : ∀ (a b : List Str), commonLen a b = a.length → a ++ b.drop a.length = b := by
  intro a
  induction a with
  | nil => intro b _; rfl
  | cons s rest ih =>
    intro b h
    cases b with
    | nil => simp [commonLen] at h
    | cons t brest =>
      unfold commonLen at h
      by_cases hst : s = t
      · rw [if_pos hst] at h
        have := ih brest (by rw [List.length_cons] at h; omega)
        subst hst
        show s :: (rest ++ brest.drop rest.length) = s :: brest
        rw [this]
      · rw [if_neg hst] at h
        simp at h

theorem jsRelative_renderAbs (cwd : Str) (a b : List Str)
    (ha : ∀ s ∈ a, validSeg s) (hb : ∀ s ∈ b, validSeg s) :
    jsRelative cwd (renderAbs a) (renderAbs b)
      = if a = b then []
        else interSlash
          (List.replicate (a.length - commonLen a b) ['.', '.'] ++ b.drop (commonLen a b)) := by
  simp only [jsRelative]
  rw [jsResolve1_renderAbs cwd a ha, jsResolve1_renderAbs cwd b hb,
    segsOf_renderAbs a ha, segsOf_renderAbs b hb]
  by_cases h : a = b
  · rw [if_pos (by rw [h]), if_pos h]
  · rw [if_neg (fun hr => h (renderAbs_inj ha hb hr)), if_neg h]

theorem dropWhile_append_all {p : Char → Bool} :
    ∀ (xs ys : Str), (∀ x ∈ xs, p x = true) →
      List.dropWhile p (xs ++ ys) = List.dropWhile p ys := by
  intro xs
  induction xs with
  | nil => intro ys _; rfl
  | cons x t ih =>
    intro ys h
    rw [List.cons_append, List.dropWhile_cons,
      if_pos (h x (List.mem_cons_self x t)), ih ys (fun y hy => h y (List.mem_cons_of_mem x hy))]

theorem jsDirname_render_snoc (b : List Str) (s : Str)
    (hb : ∀ x ∈ b, validSeg x) (hs : validSeg s) :
    jsDirname (renderAbs (b ++ [s])) = renderAbs b := by
  have hrender : renderAbs (b ++ [s])
      = '/' :: (if b = [] then s else interSlash b ++ '/' :: s) := by
    unfold renderAbs
    rw [interSlash_append_singleton]
  rcases hrev : s.reverse with _ | ⟨c0, rt⟩
  · exact absurd (by simpa using congrArg List.reverse hrev) hs.1
  have hc0 : c0 ∈ s := by
    rw [← List.mem_reverse, hrev]
    exact List.mem_cons_self _ _
  have hms : ∀ x ∈ s.reverse, (fun d => decide (d ≠ '/')) x = true := by
    intro x hx
    have : x ∈ s := List.mem_reverse.1 hx
    simp only [decide_eq_true_eq]
    exact fun hxc => hs.2.1 (hxc ▸ this)
  have hc0ne : (decide (c0 = '/')) = false := by
    simp only [decide_eq_false_iff_not]
    exact fun hxc => hs.2.1 (hxc ▸ hc0)
  cases b with
  | nil =>
    rw [hrender, if_pos rfl]
    simp only [jsDirname]
    have h1 : ('/' :: s).reverse = s.reverse ++ ['/'] := by simp
    have hrp : ((('/' :: s).reverse.dropWhile (fun d => d = '/')).dropWhile
        (fun d => d ≠ '/')) = ['/'] := by
      rw [h1, hrev, List.cons_append, List.dropWhile_cons, if_neg (by rw [hc0ne]; simp)]
      rw [← List.cons_append]
      rw [dropWhile_append_all (c0 :: rt) ['/'] (by rw [← hrev]; exact hms)]
      rfl
    rw [hrp]
    simp [renderAbs, interSlash]
  | cons s0 brest =>
    have hbne : (s0 :: brest) ≠ [] := List.cons_ne_nil _ _
    have hisne : interSlash (s0 :: brest) ≠ [] := interSlash_ne_nil hb hbne
    rw [hrender, if_neg hbne]
    simp only [jsDirname]
    have h1 : ('/' :: (interSlash (s0 :: brest) ++ '/' :: s)).reverse
        = s.reverse ++ '/' :: ((interSlash (s0 :: brest)).reverse ++ ['/']) := by
      simp
    have hrp : ((('/' :: (interSlash (s0 :: brest) ++ '/' :: s)).reverse.dropWhile
          (fun d => d = '/')).dropWhile (fun d => d ≠ '/'))
        = '/' :: ((interSlash (s0 :: brest)).reverse ++ ['/']) := by
      rw [h1, hrev, List.cons_append, List.dropWhile_cons, if_neg (by rw [hc0ne]; simp)]
      rw [← List.cons_append]
      rw [dropWhile_append_all (c0 :: rt) _ (by rw [← hrev]; exact hms)]
      rw [List.dropWhile_cons]
      simp
    rw [hrp]
    have hlen : ('/' :: ((interSlash (s0 :: brest)).reverse ++ ['/'])).length
        = (interSlash (s0 :: brest)).length + 2 := by simp
    rw [hlen]
    rw [if_neg (by omega)]
    have hnot1 : ¬ (True ∧ (interSlash (s0 :: brest)).length + 2 - 1 = 1) := by
      intro hK
      have h2 := hK.2
      have : (interSlash (s0 :: brest)).length = 0 := by omega
      exact hisne (List.length_eq_zero.1 this)
    rw [if_neg hnot1]
    show ('/' :: (interSlash (s0 :: brest) ++ '/' :: s)).take
      ((interSlash (s0 :: brest)).length + 2 - 1) = renderAbs (s0 :: brest)
    have : (interSlash (s0 :: brest)).length + 2 - 1
        = (interSlash (s0 :: brest)).length + 1 := by omega
    rw [this, List.take_succ_cons]
    unfold renderAbs
    rw [List.take_left]

theorem mem_of_getLast?_eq (l : Str) (c : Char) (h : l.getLast? = some c) : c ∈ l := by
  have hm : c ∈ l.getLast? := by rw [h]; rfl
  rcases List.mem_getLast?_eq_getLast hm with ⟨hne, hc⟩
  rw [hc]
  exact List.getLast_mem hne

theorem getLast_cons_of_ne_nil (c : Char) (l : Str) (h : l ≠ []) :
    (c :: l).getLast? = l.getLast? := by
  show ([c] ++ l).getLast? = l.getLast?
  exact List.getLast?_append_of_ne_nil [c] h

theorem interSlash_getLast_ne_slash :
    ∀ (segs : List Str), (∀ s ∈ segs, validSeg s) → segs ≠ [] →
      ∀ c, (interSlash segs).getLast? = some c → c ≠ '/' := by
  intro segs
  induction segs with
  | nil => intro _ h; exact absurd rfl h
  | cons s rest ih =>
    intro hv _ c hc
    have hs : validSeg s := hv s (List.mem_cons_self s rest)
    cases rest with
    | nil =>
      have : c ∈ s := mem_of_getLast?_eq s c hc
      exact fun h => hs.2.1 (h ▸ this)
    | cons t rest2 =>
      have hrest : ∀ x ∈ t :: rest2, validSeg x :=
        fun x hx => hv x (List.mem_cons_of_mem s hx)
      have hne : interSlash (t :: rest2) ≠ [] :=
        interSlash_ne_nil hrest (List.cons_ne_nil t rest2)
      have h1 : interSlash (s :: t :: rest2) = s ++ '/' :: interSlash (t :: rest2) := rfl
      rw [h1, List.getLast?_append_of_ne_nil s (List.cons_ne_nil _ _),
        getLast_cons_of_ne_nil '/' _ hne] at hc
      exact ih hrest (List.cons_ne_nil t rest2) c hc

theorem jsNormalize_renderAbs (segs : List Str) (hv : ∀ s ∈ segs, validSeg s) :
    jsNormalize (renderAbs segs) = renderAbs segs := by
  cases segs with
  | nil => decide
  | cons s0 srest =>
    have hne : interSlash (s0 :: srest) ≠ [] :=
      interSlash_ne_nil hv (List.cons_ne_nil s0 srest)
    have hpne : renderAbs (s0 :: srest) ≠ [] := List.cons_ne_nil _ _
    simp only [jsNormalize]
    rw [if_neg hpne]
    have habs : ((renderAbs (s0 :: srest)).head? = some '/') := rfl
    have htrail : ¬ ((renderAbs (s0 :: srest)).getLast? = some '/') := by
      unfold renderAbs
      rw [getLast_cons_of_ne_nil '/' _ hne]
      rcases hgl : (interSlash (s0 :: srest)).getLast? with _ | ⟨c⟩
      · rw [List.getLast?_eq_none_iff] at hgl
        exact absurd hgl hne
      · intro hcontra
        have := interSlash_getLast_ne_slash (s0 :: srest) hv
          (List.cons_ne_nil s0 srest) c hgl
        exact this (Option.some_injective _ hcontra)
    rw [if_pos habs, if_neg htrail]
    have hdec : decide ((renderAbs (s0 :: srest)).head? = some '/') = true := rfl
    rw [hdec, segsOf_renderAbs _ hv, normSegs_valid _ hv, if_neg hne]
    simp [renderAbs]

theorem jsJoin2_render (segs : List Str) (filename : Str)
    (hv : ∀ s ∈ segs, validSeg s) (hf : validSeg filename) :
    jsJoin2 (renderAbs segs) filename = renderAbs (segs ++ [filename]) := by
  have hvall : ∀ s ∈ segs ++ [filename], validSeg s := by
    intro x hx
    rcases List.mem_append.1 hx with h | h
    · exact hv x h
    · rw [List.mem_singleton.1 h]; exact hf
  simp only [jsJoin2]
  rw [if_neg (show ¬ (renderAbs segs = []) from List.cons_ne_nil _ _), if_neg hf.1]
  cases segs with
  | nil =>
    show jsNormalize (['/'] ++ '/' :: filename) = renderAbs [filename]
    have h2 : (['/'] : Str) ++ '/' :: filename = '/' :: '/' :: filename := rfl
    rw [h2]
    have hpne : ('/' :: '/' :: filename) ≠ [] := List.cons_ne_nil _ _
    simp only [jsNormalize]
    rw [if_neg hpne]
    have habs : (('/' :: '/' :: filename).head? = some '/') := rfl
    have htrail : ¬ (('/' :: '/' :: filename).getLast? = some '/') := by
      rw [show ('/' :: '/' :: filename) = ['/', '/'] ++ filename from rfl,
        List.getLast?_append_of_ne_nil (['/', '/'] : Str) hf.1]
      rcases hgl : filename.getLast? with _ | ⟨c⟩
      · rw [List.getLast?_eq_none_iff] at hgl
        exact absurd hgl hf.1
      · intro hcontra
        have hcm : c ∈ filename := mem_of_getLast?_eq filename c hgl
        have : c = '/' := Option.some_injective _ hcontra
        exact hf.2.1 (this ▸ hcm)
    rw [if_pos habs, if_neg htrail]
    have hdec : decide (('/' :: '/' :: filename).head? = some '/') = true := rfl
    rw [hdec]
    have hsegs : segsOf ('/' :: '/' :: filename) = [filename] := by
      unfold segsOf
      rw [splitChar_cons_sep, splitChar_cons_sep,
        splitChar_no_sep '/' filename (fun c hc hcc => hf.2.1 (hcc ▸ hc))]
      simp [List.filter, hf.1]
    rw [hsegs, normSegs_valid [filename] (by
      intro x hx
      rw [List.mem_singleton.1 hx]
      exact hf)]
    rw [if_neg (show ¬ (interSlash [filename] = []) from hf.1)]
    simp [renderAbs, interSlash]
  | cons s0 srest =>
    show jsNormalize (renderAbs (s0 :: srest) ++ '/' :: filename)
      = renderAbs ((s0 :: srest) ++ [filename])
    have h2 : renderAbs (s0 :: srest) ++ '/' :: filename
        = renderAbs ((s0 :: srest) ++ [filename]) := by
      unfold renderAbs
      rw [interSlash_append_singleton, if_neg (List.cons_ne_nil s0 srest)]
      rfl
    rw [h2, jsNormalize_renderAbs _ hvall]

theorem dotdot_prefix_replicate (n : Nat) (x : List Str) :
    (['.', '.'] : Str).isPrefixOf
      (interSlash (List.replicate (n + 1) ['.', '.'] ++ x)) = true := by
  rw [List.replicate_succ, List.cons_append]
  rcases h : List.replicate n (['.', '.'] : Str) ++ x with _ | ⟨y, t⟩
  · simp [interSlash, List.isPrefixOf]
  · show (['.', '.'] : Str).isPrefixOf (['.', '.'] ++ '/' :: interSlash (y :: t)) = true
    simp [List.isPrefixOf]

theorem isDescendantRel_of_dotdot (r : Str)
    (h : (['.', '.'] : Str).isPrefixOf r = true) : isDescendantRel r = false := by
  unfold isDescendantRel
  rw [h]
  simp

theorem isDescendant_render_up (cwd : Str) (b e : List Str)
    (hb : ∀ s ∈ b, validSeg s) (hv : ∀ s ∈ b ++ e, validSeg s) (he : e ≠ []) :
    isDescendant cwd (renderAbs b) (renderAbs (b ++ e)) = false := by
  unfold isDescendant
  rw [jsRelative_renderAbs cwd (b ++ e) b hv hb]
  have hne : b ++ e ≠ b := by
    intro hc
    exact he (by simpa using congrArg List.length hc)
  rw [if_neg hne, commonLen_append_self]
  have hlen : (b ++ e).length - b.length = e.length := by simp
  rw [hlen]
  rcases he2 : e with _ | ⟨e0, erest⟩
  · exact absurd he2 he
  exact isDescendantRel_of_dotdot _
    (dotdot_prefix_replicate erest.length (b.drop b.length))

theorem isDescendant_render_decomp (cwd : Str) (a b : List Str)
    (ha : ∀ s ∈ a, validSeg s) (hb : ∀ s ∈ b, validSeg s)
    (h : isDescendant cwd (renderAbs a) (renderAbs b) = true) :
    ∃ e, e ≠ [] ∧ a = b ++ e ∧ (∀ s ∈ e, validSeg s) := by
  unfold isDescendant at h
  rw [jsRelative_renderAbs cwd b a hb ha] at h
  by_cases hba : b = a
  · rw [if_pos hba] at h
    simp [isDescendantRel, jsTruthyStr] at h
  rw [if_neg hba] at h
  have hc : commonLen b a = b.length := by
    by_contra hcne
    have hle := commonLen_le_left b a
    rcases hrep : b.length - commonLen b a with _ | n
    · omega
    · rw [hrep] at h
      rw [isDescendantRel_of_dotdot _
        (dotdot_prefix_replicate n (a.drop (commonLen b a)))] at h
      exact Bool.false_ne_true h
  have hdecomp := commonLen_full_take b a hc
  refine ⟨a.drop b.length, ?_, hdecomp.symm, ?_⟩
  · intro hnil
    rw [hnil, List.append_nil] at hdecomp
    exact hba hdecomp
  · intro s hsm
    exact ha s (List.mem_of_mem_drop hsm)

/-! ## The ancestor-walk specification (from the spec's words)

The claim describes `findFileInParents` as checking `dir` and each
ancestor directory strictly below `limit` for the named file — never the
limit itself — first hit wins.  `findFileSpecRev` writes exactly that
walk, over the reversed list of the extra segments of `dir` below
`limit`. -/

/-- The checked directories, innermost first: `base ++ rev.reverse`,
then `base ++ rev.tail.reverse`, … down to (but excluding) `base`.  The
result is the first candidate file that exists. -/
def findFileSpecRev (fs : Str → Bool) (filename : Str) (base : List Str) :
    List Str → Option Str
  | [] => none
  | e :: rest =>
    if fs (renderAbs ((base ++ (e :: rest).reverse) ++ [filename])) then
      some (renderAbs ((base ++ (e :: rest).reverse) ++ [filename]))
    else findFileSpecRev fs filename base rest

theorem interSlash_length_lb : ∀ (segs : List Str), segs.length ≤ (interSlash segs).length + 1 := by
  intro segs
  induction segs with
  | nil => simp
  | cons s rest ih =>
    cases rest with
    | nil => simp [interSlash]
    | cons t r2 =>
      have h1 : interSlash (s :: t :: r2) = s ++ '/' :: interSlash (t :: r2) := rfl
      rw [h1]
      simp only [List.length_cons, List.length_append] at ih ⊢
      omega

theorem findLoop_render (fs : Str → Bool) (filename : Str) (hf : validSeg filename) :
    ∀ (r : List Str) (b : List Str), (∀ s ∈ b, validSeg s) → (∀ s ∈ r, validSeg s) →
      ∀ fuel, fuel ≥ r.length + 1 →
      findLoop fs filename fuel (renderAbs (b ++ r.reverse)) (renderAbs b)
        = some (findFileSpecRev fs filename b r) := by
  intro r
  induction r with
  | nil =>
    intro b hb _ fuel hfuel
    rcases fuel with _ | fuel
    · omega
    · show findLoop fs filename (fuel + 1) (renderAbs (b ++ [])) (renderAbs b) = some none
      rw [List.append_nil]
      unfold findLoop
      rw [if_pos rfl]
  | cons e rest ih =>
    intro b hb hr fuel hfuel
    rcases fuel with _ | fuel
    · exact absurd hfuel (by simp)
    have hve : validSeg e := hr e (List.mem_cons_self e rest)
    have hvrev : ∀ s ∈ (e :: rest).reverse, validSeg s := by
      intro x hx
      exact hr x (List.mem_reverse.1 hx)
    have hvall : ∀ s ∈ b ++ (e :: rest).reverse, validSeg s := by
      intro x hx
      rcases List.mem_append.1 hx with h | h
      · exact hb x h
      · exact hvrev x h
    have hne : renderAbs (b ++ (e :: rest).reverse) ≠ renderAbs b := by
      intro hc
      have := congrArg List.length (renderAbs_inj hvall hb hc)
      simp at this
    unfold findLoop
    rw [if_neg hne, jsJoin2_render _ filename hvall hf]
    by_cases hfs : fs (renderAbs ((b ++ (e :: rest).reverse) ++ [filename])) = true
    · rw [if_pos hfs]
      have hspec : findFileSpecRev fs filename b (e :: rest)
          = some (renderAbs ((b ++ (e :: rest).reverse) ++ [filename])) := by
        show (if fs (renderAbs ((b ++ (e :: rest).reverse) ++ [filename])) then
            some (renderAbs ((b ++ (e :: rest).reverse) ++ [filename]))
          else findFileSpecRev fs filename b rest) = _
        rw [if_pos hfs]
      rw [hspec]
    · rw [if_neg hfs]
      have hrev : (e :: rest).reverse = rest.reverse ++ [e] := by simp
      have hdir : jsDirname (renderAbs (b ++ (e :: rest).reverse))
          = renderAbs (b ++ rest.reverse) := by
        rw [hrev, ← List.append_assoc]
        exact jsDirname_render_snoc (b ++ rest.reverse) e
          (fun x hx => by
            rcases List.mem_append.1 hx with h | h
            · exact hb x h
            · exact hr x (List.mem_cons_of_mem e (List.mem_reverse.1 h)))
          hve
      rw [hdir, ih b hb (fun x hx => hr x (List.mem_cons_of_mem e hx)) fuel
        (by simp at hfuel ⊢; omega)]
      have hspec : findFileSpecRev fs filename b (e :: rest)
          = findFileSpecRev fs filename b rest := by
        show (if fs (renderAbs ((b ++ (e :: rest).reverse) ++ [filename])) then
            some (renderAbs ((b ++ (e :: rest).reverse) ++ [filename]))
          else findFileSpecRev fs filename b rest) = _
        rw [if_neg hfs]
      rw [hspec]

theorem isDescendant_render_self (cwd : Str) (b : List Str)
    (hb : ∀ s ∈ b, validSeg s) :
    isDescendant cwd (renderAbs b) (renderAbs b) = false := by
  unfold isDescendant
  rw [jsRelative_renderAbs cwd b b hb hb, if_pos rfl]
  rfl

/-- Claim C10, counterexample: for the non-normalized directory `/a//b`
under limit `/a` (which the code's own `isDescendant` accepts), the walk
steps through `path.dirname("/a//b") = "/a/"`, a string unequal to the
limit `"/a"`, and therefore checks — and here returns — the file
`/a/file` that lives in the limit directory itself; the claim says the
limit directory is never checked and the result should be undefined. -/
theorem claim10_find_in_parents_counterexample :
    (isDescendant ("/".data) ("/a//b".data) ("/a".data) = true)
    ∧ findFileInParents ("/".data) (fun p => p == "/a/file".data) ("file".data)
        ("/a//b".data) ("/a".data)
      = some (some (jsJoin2 ("/a".data) ("file".data)))
    ∧ jsJoin2 ("/a".data) ("file".data) = "/a/file".data := by
  refine ⟨by decide, by decide, by decide⟩

/-- Claim C10, amended: for *normalized absolute* `dir` and `limit`
(rendered from well-formed segment lists), `findFileInParents` terminates
and: returns undefined when `dir = limit` or when `dir` fails the
`isDescendant` test against `limit`; when the test accepts, `dir` equals
`limit` extended by a nonempty segment list `e`, and the walk checks `dir`
and each ancestor strictly below `limit` — never the limit itself —
returning the first existing filepath, or undefined when none exists
below the limit (the specification walk `findFileSpecRev`).  For
non-normalized `dir` the walk can (as the counterexample shows) inspect
the limit directory itself or even fail to terminate. -/
theorem claim10_find_in_parents_amended :
    ∀ (cwd : Str) (fs : Str → Bool) (filename : Str) (da db : List Str),
      validSeg filename → (∀ s ∈ da, validSeg s) → (∀ s ∈ db, validSeg s) →
      (da = db →
        findFileInParents cwd fs filename (renderAbs da) (renderAbs db) = some none)
      ∧ (isDescendant cwd (renderAbs da) (renderAbs db) = false →
        findFileInParents cwd fs filename (renderAbs da) (renderAbs db) = some none)
      ∧ (isDescendant cwd (renderAbs da) (renderAbs db) = true →
        ∃ e, e ≠ [] ∧ da = db ++ e ∧
          findFileInParents cwd fs filename (renderAbs da) (renderAbs db)
            = some (findFileSpecRev fs filename db e.reverse)) := by
  intro cwd fs filename da db hf ha hb
  refine ⟨?_, ?_, ?_⟩
  · intro hdadb
    subst hdadb
    unfold findFileInParents
    rw [if_pos (by rw [isDescendant_render_self cwd da ha]; rfl)]
  · intro hdesc
    unfold findFileInParents
    rw [if_pos (by rw [hdesc]; rfl)]
  · intro hdesc
    rcases isDescendant_render_decomp cwd da db ha hb hdesc with ⟨e, hene, hdae, hev⟩
    refine ⟨e, hene, hdae, ?_⟩
    have hup : isDescendant cwd (renderAbs db) (renderAbs da) = false := by
      rw [hdae]
      exact isDescendant_render_up cwd db e hb (hdae ▸ ha) hene
    unfold findFileInParents
    rw [if_neg (by rw [hdesc, hup]; simp)]
    have hrev : da = db ++ e.reverse.reverse := by rw [List.reverse_reverse]; exact hdae
    rw [show renderAbs da = renderAbs (db ++ e.reverse.reverse) from by rw [← hrev]]
    rw [findLoop_render fs filename hf e.reverse db hb
      (fun x hx => hev x (List.mem_reverse.1 hx))
      ((renderAbs (db ++ e.reverse.reverse)).length + 2) ?_]
    rw [← hrev]
    have h1 : da.length ≤ (renderAbs da).length := by
      have := interSlash_length_lb da
      simp only [renderAbs, List.length_cons]
      omega
    have h2 : e.length ≤ da.length := by
      rw [hdae]
      simp
    simp only [List.length_reverse]
    omega

/-- Witness for `claim10_find_in_parents_amended`: dir `/a/b`, limit `/a`,
with the file present at `/a/b/f`. -/
theorem claim10_find_in_parents_witness :
    (validSeg ("f".data) ∧ isDescendant ("/".data) (renderAbs [("a".data), ("b".data)])
      (renderAbs [("a".data)]) = true)
    ∧ ∃ e, e ≠ [] ∧ [("a".data), ("b".data)] = [("a".data)] ++ e ∧
        findFileInParents ("/".data) (fun p => p == "/a/b/f".data) ("f".data)
            (renderAbs [("a".data), ("b".data)]) (renderAbs [("a".data)])
          = some (findFileSpecRev (fun p => p == "/a/b/f".data) ("f".data)
              [("a".data)] e.reverse) :=
  ⟨⟨by decide, by decide⟩,
    (claim10_find_in_parents_amended ("/".data) (fun p => p == "/a/b/f".data) ("f".data)
      [("a".data), ("b".data)] [("a".data)] (by decide) (by decide) (by decide)).2.2
      (by decide)⟩

/-! ## Helper lemmas: first-match searches -/

theorem head?_filter_map {α β : Type} (p : α → Bool) (g : α → β) :
    ∀ (l : List α), ((l.filter p).map g).head? = (l.find? p).map g := by
  intro l
  induction l with
  | nil => rfl
  | cons a t ih =>
    rw [List.filter_cons, List.find?_cons]
    by_cases h : p a = true
    · rw [if_pos h, h]
      rfl
    · rw [if_neg h]
      cases hpa : p a with
      | true => exact absurd hpa h
      | false => exact ih

theorem find?_congr_mem {α : Type} (p q : α → Bool) :
    ∀ (l : List α), (∀ a ∈ l, p a = q a) → l.find? p = l.find? q := by
  intro l
  induction l with
  | nil => intro _; rfl
  | cons a t ih =>
    intro h
    rw [List.find?_cons, List.find?_cons, h a (List.mem_cons_self a t),
      ih (fun x hx => h x (List.mem_cons_of_mem a hx))]

/-- The per-table contribution of `getSymbols`. -/
def getSymbolsElem (gdp : Str → Option Str → Str) (identifier : IIdentifier)
    (currentPath : Str) (symbols : IDocumentSymbols) : List ISymbol :=
  if identifier.type = SymbolsKeyT.imports then []
  else
    ((kindItems symbols.toISymbols identifier.type).filter
      (fun item => item.name = identifier.name
        && !(samePosition item.position identifier.position))).map
      (fun item => ⟨symbols.filepath, gdp currentPath symbols.document, item⟩)

theorem getSymbols_acc (gdp : Str → Option Str → Str) (identifier : IIdentifier)
    (currentPath : Str) :
    ∀ (l : List IDocumentSymbols) (acc : List ISymbol),
      l.foldl
        (fun list symbols =>
          if identifier.type = SymbolsKeyT.imports then list
          else
            list ++
              ((kindItems symbols.toISymbols identifier.type).filter
                (fun item => item.name = identifier.name
                  && !(samePosition item.position identifier.position))).map
                (fun item => ⟨symbols.filepath, gdp currentPath symbols.document, item⟩))
        acc
      = acc ++ l.flatMap (getSymbolsElem gdp identifier currentPath) := by
  intro l
  induction l with
  | nil => intro acc; simp
  | cons v t ih =>
    intro acc
    rw [List.foldl_cons, List.flatMap_cons]
    have hstep :
        (if identifier.type = SymbolsKeyT.imports then acc
          else
            acc ++
              ((kindItems v.toISymbols identifier.type).filter
                (fun item => item.name = identifier.name
                  && !(samePosition item.position identifier.position))).map
                (fun item => ⟨v.filepath, gdp currentPath v.document, item⟩))
        = acc ++ getSymbolsElem gdp identifier currentPath v := by
      unfold getSymbolsElem
      by_cases h : identifier.type = SymbolsKeyT.imports
      · rw [if_pos h, if_pos h, List.append_nil]
      · rw [if_neg h, if_neg h]
    rw [hstep, ih]
    simp

theorem getSymbols_eq_flatMap (gdp : Str → Option Str → Str)
    (symbolList : List IDocumentSymbols) (identifier : IIdentifier) (currentPath : Str) :
    getSymbols gdp symbolList identifier currentPath
      = symbolList.flatMap (getSymbolsElem gdp identifier currentPath) := by
  unfold getSymbols
  rw [getSymbols_acc gdp identifier currentPath symbolList []]
  rfl

/-- The definition query as the spec words it: all indexed tables except
the current document (excluded by path equality), searched in
index-iteration order for the first entry of the matching kind whose name
equals the identifier's and whose declaration position differs from the
reference's own; the result is a single-line location at that entry. -/
def firstDefinitionSpec (st1 : StorageService) (currentPath : Str)
    (identifier : IIdentifier) : Option Location :=
  match (st1.values.filter (fun v => v.filepath ≠ some currentPath)).findSome?
      (fun v =>
        ((kindItems v.toISymbols identifier.type).find?
          (fun it => it.name = identifier.name
            && it.position ≠ some identifier.position)).map
          (fun it => (v.filepath, it))) with
  | some (some doc, it) =>
    match it.position with
    | some pos =>
      some ⟨uriFile doc, pos, ⟨pos.line, pos.character + it.name.length⟩⟩
    | none => none
  | _ => none

theorem search_agreement (gdp : Str → Option Str → Str) (identifier : IIdentifier)
    (cur : Str) :
    ∀ (vals : List IDocumentSymbols),
      (∀ v ∈ vals, v.document = v.filepath) →
      (∀ v ∈ vals, ∀ it ∈ kindItems v.toISymbols identifier.type, it.position ≠ none) →
      (∀ v ∈ vals, v.filepath ≠ none) →
      ∃ r : Option (Str × NamedSymbol),
        ((vals.filter
            (fun item => item.document ≠ some cur || item.filepath ≠ some cur)).flatMap
           (getSymbolsElem gdp identifier cur)).head?
          = r.map (fun x => (⟨some x.1, gdp cur (some x.1), x.2⟩ : ISymbol))
        ∧ ((vals.filter (fun v => v.filepath ≠ some cur)).findSome?
            (fun v =>
              ((kindItems v.toISymbols identifier.type).find?
                (fun it => it.name = identifier.name
                  && it.position ≠ some identifier.position)).map
                (fun it => (v.filepath, it))))
          = r.map (fun x => ((some x.1 : Option Str), x.2))
        ∧ (∀ x, r = some x → x.2.position ≠ none) := by
  intro vals
  induction vals with
  | nil =>
    intro _ _ _
    exact ⟨none, rfl, rfl, fun x hx => Option.noConfusion hx⟩
  | cons v t ih =>
    intro h1 h2 h3
    have hv1 : v.document = v.filepath := h1 v (List.mem_cons_self v t)
    have hv3 : v.filepath ≠ none := h3 v (List.mem_cons_self v t)
    obtain ⟨r, hcode, hspec, hpos⟩ := ih
      (fun x hx => h1 x (List.mem_cons_of_mem v hx))
      (fun x hx => h2 x (List.mem_cons_of_mem v hx))
      (fun x hx => h3 x (List.mem_cons_of_mem v hx))
    by_cases hkeep : v.filepath ≠ some cur
    · -- kept by both filters
      have hkeep1 : (v.document ≠ some cur || v.filepath ≠ some cur) = true := by
        simp [hkeep]
      have hkeep2 : (decide (v.filepath ≠ some cur)) = true := by simp [hkeep]
      rw [List.filter_cons, List.filter_cons]
      rw [if_pos hkeep1, if_pos (by rw [hkeep2])]
      rw [List.flatMap_cons, List.head?_append, List.findSome?_cons]
      rcases hfp : v.filepath with _ | ⟨docStr⟩
      · exact absurd hfp hv3
      by_cases himp : identifier.type = SymbolsKeyT.imports
      · have he : getSymbolsElem gdp identifier cur v = [] := by
          unfold getSymbolsElem
          rw [if_pos himp]
        have hki : kindItems v.toISymbols identifier.type = [] := by
          rw [himp]
          rfl
        rw [he, hki]
        simp only [List.find?_nil, Option.map_none, List.head?_nil, Option.none_or]
        exact ⟨r, hcode, hspec, hpos⟩
      · have he : getSymbolsElem gdp identifier cur v
            = ((kindItems v.toISymbols identifier.type).filter
                (fun item => item.name = identifier.name
                  && !(samePosition item.position identifier.position))).map
                (fun item => ⟨v.filepath, gdp cur v.document, item⟩) := by
          unfold getSymbolsElem
          rw [if_neg himp]
        rw [he, head?_filter_map]
        have hpred : (kindItems v.toISymbols identifier.type).find?
            (fun item => item.name = identifier.name
              && !(samePosition item.position identifier.position))
            = (kindItems v.toISymbols identifier.type).find?
            (fun it => it.name = identifier.name
              && it.position ≠ some identifier.position) := by
          refine find?_congr_mem _ _ _ ?_
          intro it hit
          have hitpos : it.position ≠ none := h2 v (List.mem_cons_self v t) it hit
          rcases hip : it.position with _ | ⟨a⟩
          · exact absurd hip hitpos
          have hsp : samePosition (some a) identifier.position
              = decide (a = identifier.position) := by
            unfold samePosition
            rcases a with ⟨al, ac⟩
            rcases identifier.position with ⟨bl, bc⟩
            by_cases hab : (⟨al, ac⟩ : Position) = ⟨bl, bc⟩
            · rw [decide_eq_true hab]
              have hl : al = bl := by cases hab; rfl
              have hc2 : ac = bc := by cases hab; rfl
              simp [hl, hc2]
            · rw [decide_eq_false hab]
              have : ¬ (al = bl ∧ ac = bc) := by
                intro ⟨hl, hc2⟩
                exact hab (by rw [hl, hc2])
              rcases Decidable.not_and_iff_or_not.1 this with hne | hne
              · simp [hne]
              · simp [hne]
          rw [hsp]
          have : (decide (some a ≠ some identifier.position))
              = !(decide (a = identifier.position)) := by
            by_cases hae : a = identifier.position
            · simp [hae]
            · simp [hae]
          rw [this]
        rw [hpred]
        rcases hfind : (kindItems v.toISymbols identifier.type).find?
            (fun it => it.name = identifier.name
              && it.position ≠ some identifier.position) with _ | ⟨it⟩
        · rw [hfind]
          exact ⟨r, hcode, hspec, hpos⟩
        · refine ⟨some (docStr, it), ?_, ?_, ?_⟩
          · rw [hfind]
            show some (⟨v.filepath, gdp cur v.document, it⟩ : ISymbol)
              = some ⟨some docStr, gdp cur (some docStr), it⟩
            rw [hfp, hv1.trans hfp]
          · rw [hfind]
            rfl
          · intro x hx
            have hxi : x = (docStr, it) := Option.some_injective _ hx.symm
            rw [hxi]
            exact h2 v (List.mem_cons_self v t) it (List.mem_of_find?_eq_some hfind)
    · -- dropped by both filters
      have hfp2 : v.filepath = some cur := Decidable.not_not.1 hkeep
      have hdoc2 : v.document = some cur := hv1.trans hfp2
      have hk1 : (v.document ≠ some cur || v.filepath ≠ some cur) = false := by
        simp [hfp2, hdoc2]
      have hk2 : (decide (v.filepath ≠ some cur)) = false := by simp [hfp2]
      rw [List.filter_cons, List.filter_cons, hk1, hk2]
      simp only [Bool.false_eq_true, if_false]
      exact ⟨r, hcode, hspec, hpos⟩

/-- Claim C3: `goDefinition`'s identifier search, after writing the
freshly parsed symbol table back into the Index, gathers every indexed
table except the current document's (path equality; tables written by the
scanner and providers have `document = filepath`, carried here as the
reachable-state hypotheses) and returns the first entry of the matching
kind, in index-iteration order, whose name matches and whose declaration
position differs from the reference's own — as a single-line location —
or `null` when there is none (and it does not throw). -/
theorem claim3_definition_first_match :
    ∀ (gdp : Str → Option Str → Str) (st : StorageService) (documentUri : Str)
      (symbols : IDocumentSymbols) (identifier : IIdentifier),
      symbols.document = some (uriToFsPath documentUri) →
      (∀ v ∈ (st.set documentUri symbols).values, v.document = v.filepath) →
      (∀ v ∈ (st.set documentUri symbols).values,
        ∀ it ∈ kindItems v.toISymbols identifier.type, it.position ≠ none) →
      (∀ v ∈ (st.set documentUri symbols).values, v.filepath ≠ none) →
      goIdentifier gdp st documentUri symbols identifier
        = some (st.set documentUri symbols,
            firstDefinitionSpec (st.set documentUri symbols)
              (uriToFsPath documentUri) identifier) := by
  intro gdp st documentUri symbols identifier hdoc h1 h2 h3
  obtain ⟨r, hcode, hspec, hpos⟩ := search_agreement gdp identifier
    (uriToFsPath documentUri) (st.set documentUri symbols).values h1 h2 h3
  have hif : (if symbols.document ≠ none then st.set documentUri symbols else st)
      = st.set documentUri symbols := by
    rw [if_pos]
    rw [hdoc]
    exact fun h => Option.noConfusion h
  have heq : goIdentifier gdp st documentUri symbols identifier
      = (match (getSymbols gdp (getSymbolsRelatedToDocument (st.set documentUri symbols)
            (uriToFsPath documentUri)) identifier (uriToFsPath documentUri)).head? with
        | none => some (st.set documentUri symbols, none)
        | some definition =>
          match definition.document with
          | none => some (st.set documentUri symbols, none)
          | some doc =>
            match definition.info.position with
            | none => none
            | some pos =>
              some (st.set documentUri symbols, some ⟨uriFile doc, pos,
                ⟨pos.line, pos.character + definition.info.name.length⟩⟩)) := by
    simp only [goIdentifier, hif]
  rw [heq]
  have hgs : getSymbols gdp (getSymbolsRelatedToDocument (st.set documentUri symbols)
      (uriToFsPath documentUri)) identifier (uriToFsPath documentUri)
      = ((st.set documentUri symbols).values.filter
          (fun item => item.document ≠ some (uriToFsPath documentUri)
            || item.filepath ≠ some (uriToFsPath documentUri))).flatMap
        (getSymbolsElem gdp identifier (uriToFsPath documentUri)) :=
    getSymbols_eq_flatMap gdp _ identifier _
  rw [hgs, hcode]
  unfold firstDefinitionSpec
  rw [hspec]
  rcases r with _ | ⟨docStr, it⟩
  · rfl
  · have hp := hpos (docStr, it) rfl
    rcases hip : it.position with _ | ⟨pos⟩
    · exact absurd hip hp
    · rw [Option.map_some', Option.map_some']
      show (match it.position with
        | none => (none : Option (StorageService × Option Location))
        | some pos =>
          some (st.set documentUri symbols, some ⟨uriFile docStr, pos,
            ⟨pos.line, pos.character + it.name.length⟩⟩)) = _
      rw [hip]
      simp only [hip]

/-- Witness for `claim3_definition_first_match`: one indexed neighbour
`/b.scss` declaring variable `c`, queried from `/a.scss`. -/
theorem claim3_definition_first_match_witness :
    goIdentifier (fun _ sp => jsOrEmpty sp)
      ⟨[((uriFile ("/b.scss".data) : Str),
          { document := some ("/b.scss".data), filepath := some ("/b.scss".data),
            «variables» := [{ name := "c".data, position := some ⟨1, 0⟩ }] })], [], []⟩
      ("file:///a.scss".data)
      { document := some (uriToFsPath ("file:///a.scss".data)),
        filepath := some (uriToFsPath ("file:///a.scss".data)) }
      ⟨SymbolsKeyT.variables, ⟨5, 2⟩, "c".data⟩
      = some
        ((⟨[((uriFile ("/b.scss".data) : Str),
            { document := some ("/b.scss".data), filepath := some ("/b.scss".data),
              «variables» := [{ name := "c".data, position := some ⟨1, 0⟩ }] })], [], []⟩
          : StorageService).set ("file:///a.scss".data)
            { document := some (uriToFsPath ("file:///a.scss".data)),
              filepath := some (uriToFsPath ("file:///a.scss".data)) },
          firstDefinitionSpec
            ((⟨[((uriFile ("/b.scss".data) : Str),
              { document := some ("/b.scss".data), filepath := some ("/b.scss".data),
                «variables» := [{ name := "c".data, position := some ⟨1, 0⟩ }] })], [], []⟩
              : StorageService).set ("file:///a.scss".data)
                { document := some (uriToFsPath ("file:///a.scss".data)),
                  filepath := some (uriToFsPath ("file:///a.scss".data)) })
            (uriToFsPath ("file:///a.scss".data))
            ⟨SymbolsKeyT.variables, ⟨5, 2⟩, "c".data⟩) :=
  claim3_definition_first_match (fun _ sp => jsOrEmpty sp)
    ⟨[((uriFile ("/b.scss".data) : Str),
        { document := some ("/b.scss".data), filepath := some ("/b.scss".data),
          «variables» := [{ name := "c".data, position := some ⟨1, 0⟩ }] })], [], []⟩
    ("file:///a.scss".data)
    { document := some (uriToFsPath ("file:///a.scss".data)),
      filepath := some (uriToFsPath ("file:///a.scss".data)) }
    ⟨SymbolsKeyT.variables, ⟨5, 2⟩, "c".data⟩
    (by decide) (by decide) (by decide) (by decide)

/-! ## Helper lemmas: the scan worklist -/

theorem setAdd_nodup (l : List Str) (x : Str) (h : l.Nodup) : (setAdd l x).Nodup := by
  unfold setAdd
  by_cases hx : x ∈ l
  · rw [if_pos hx]; exact h
  · rw [if_neg hx]
    rw [List.nodup_append]
    exact ⟨h, List.nodup_singleton x, by simpa using hx⟩

theorem setAdd_mem {l : List Str} {x y : Str} (h : y ∈ setAdd l x) : y ∈ l ∨ y = x := by
  unfold setAdd at h
  by_cases hx : x ∈ l
  · rw [if_pos hx] at h; exact Or.inl h
  · rw [if_neg hx] at h
    rcases List.mem_append.1 h with h1 | h1
    · exact Or.inl h1
    · exact Or.inr (List.mem_singleton.1 h1)

theorem setAdd_mem_of_mem {l : List Str} {x y : Str} (h : y ∈ l) : y ∈ setAdd l x := by
  unfold setAdd
  by_cases hx : x ∈ l
  · rw [if_pos hx]; exact h
  · rw [if_neg hx]; exact List.mem_append.2 (Or.inl h)

theorem setAdd_mem_self (l : List Str) (x : Str) : x ∈ setAdd l x := by
  unfold setAdd
  by_cases hx : x ∈ l
  · rw [if_pos hx]; exact hx
  · rw [if_neg hx]; exact List.mem_append.2 (Or.inr (List.mem_singleton.2 rfl))

theorem setAdd_extends (l : List Str) (x : Str) : ∃ suffix, setAdd l x = l ++ suffix := by
  unfold setAdd
  by_cases hx : x ∈ l
  · rw [if_pos hx]; exact ⟨[], by simp⟩
  · rw [if_neg hx]; exact ⟨[x], rfl⟩

theorem importFold_nodup (imports : List IImport) :
    ∀ (l : List Str), l.Nodup →
      (imports.foldl (fun l im => setAdd l im.filepath) l).Nodup := by
  induction imports with
  | nil => intro l h; exact h
  | cons im t ih =>
    intro l h
    rw [List.foldl_cons]
    exact ih _ (setAdd_nodup l im.filepath h)

theorem importFold_mem (imports : List IImport) :
    ∀ (l : List Str) (y : Str),
      y ∈ imports.foldl (fun l im => setAdd l im.filepath) l →
      y ∈ l ∨ y ∈ imports.map (fun im => im.filepath) := by
  induction imports with
  | nil => intro l y h; exact Or.inl h
  | cons im t ih =>
    intro l y h
    rw [List.foldl_cons] at h
    rcases ih _ y h with h1 | h1
    · rcases setAdd_mem h1 with h2 | h2
      · exact Or.inl h2
      · exact Or.inr (by rw [List.map_cons, h2]; exact List.mem_cons_self _ _)
    · exact Or.inr (by rw [List.map_cons]; exact List.mem_cons_of_mem _ h1)

theorem importFold_extends (imports : List IImport) :
    ∀ (l : List Str), ∃ suffix,
      imports.foldl (fun l im => setAdd l im.filepath) l = l ++ suffix := by
  induction imports with
  | nil => intro l; exact ⟨[], by simp⟩
  | cons im t ih =>
    intro l
    rw [List.foldl_cons]
    obtain ⟨s1, hs1⟩ := setAdd_extends l im.filepath
    obtain ⟨s2, hs2⟩ := ih (setAdd l im.filepath)
    exact ⟨s1 ++ s2, by rw [hs2, hs1, List.append_assoc]⟩

theorem setOfList_nodup (files : List Str) : (setOfList files).Nodup := by
  unfold setOfList
  have haux : ∀ (fs : List Str) (l : List Str), l.Nodup → (fs.foldl setAdd l).Nodup := by
    intro fs
    induction fs with
    | nil => intro l h; exact h
    | cons x t ih =>
      intro l h
      rw [List.foldl_cons]
      exact ih _ (setAdd_nodup l x h)
  exact haux files [] List.nodup_nil

theorem setOfList_mem {files : List Str} {y : Str} (h : y ∈ setOfList files) :
    y ∈ files := by
  unfold setOfList at h
  have haux : ∀ (fs : List Str) (l : List Str) (y : Str),
      y ∈ fs.foldl setAdd l → y ∈ l ∨ y ∈ fs := by
    intro fs
    induction fs with
    | nil => intro l y h; exact Or.inl h
    | cons x t ih =>
      intro l y h
      rw [List.foldl_cons] at h
      rcases ih _ y h with h1 | h1
      · rcases setAdd_mem h1 with h2 | h2
        · exact Or.inl h2
        · exact Or.inr (h2 ▸ List.mem_cons_self x t)
      · exact Or.inr (List.mem_cons_of_mem x h1)
  rcases haux files [] y h with h1 | h1
  · exact absurd h1 (List.not_mem_nil y)
  · exact h1

theorem mem_setOfList_of_mem {files : List Str} {y : Str} (h : y ∈ files) :
    y ∈ setOfList files := by
  unfold setOfList
  have haux : ∀ (fs : List Str) (l : List Str) (y : Str),
      (y ∈ l ∨ y ∈ fs) → y ∈ fs.foldl setAdd l := by
    intro fs
    induction fs with
    | nil =>
      intro l y h
      rcases h with h | h
      · exact h
      · exact absurd h (List.not_mem_nil y)
    | cons x t ih =>
      intro l y h
      rw [List.foldl_cons]
      rcases h with h | h
      · exact ih _ y (Or.inl (setAdd_mem_of_mem h))
      · rcases List.mem_cons.1 h with h2 | h2
        · exact ih _ y (Or.inl (h2 ▸ setAdd_mem_self l x))
        · exact ih _ y (Or.inr h2)
  exact haux files [] y (Or.inr h)

theorem setOfList_length_le (files : List Str) :
    (setOfList files).length ≤ files.length := by
  unfold setOfList
  have haux : ∀ (fs : List Str) (l : List Str),
      (fs.foldl setAdd l).length ≤ l.length + fs.length := by
    intro fs
    induction fs with
    | nil => intro l; simp
    | cons x t ih =>
      intro l
      rw [List.foldl_cons]
      have hlen : (setAdd l x).length ≤ l.length + 1 := by
        unfold setAdd
        by_cases hx : x ∈ l
        · rw [if_pos hx]; omega
        · rw [if_neg hx]; simp
      calc (t.foldl setAdd (setAdd l x)).length
          ≤ (setAdd l x).length + t.length := ih _
        _ ≤ l.length + 1 + t.length := by omega
        _ = l.length + (x :: t).length := by simp; omega
  have := haux files []
  simpa using this

theorem importUniverse_mem (fs : List (Str × ISymbols)) :
    ∀ {k : Str} {v : ISymbols}, (k, v) ∈ fs →
      ∀ {x : Str}, x ∈ v.imports.map (fun im => im.filepath) →
      x ∈ importUniverse fs := by
  induction fs with
  | nil => intro k v h; exact absurd h (List.not_mem_nil _)
  | cons e t ih =>
    intro k v h x hx
    unfold importUniverse
    rw [List.foldr_cons]
    rcases List.mem_cons.1 h with h1 | h1
    · refine List.mem_append.2 (Or.inl ?_)
      rw [← h1]
      exact hx
    · exact List.mem_append.2 (Or.inr (ih h1 hx))

theorem mapGet_mem {α : Type} {fs : List (Str × α)} {k : Str} {v : α}
    (h : mapGet fs k = some v) : (k, v) ∈ fs := by
  unfold mapGet at h
  rcases hf : fs.find? (fun e => e.1 = k) with _ | ⟨e⟩
  · rw [hf] at h; exact Option.noConfusion h
  · rw [hf] at h
    have he : e ∈ fs := List.mem_of_find?_eq_some hf
    have hk : e.1 = k := by
      have := List.find?_some hf
      simpa using this
    have hv : e.2 = v := Option.some_injective _ h
    have : e = (k, v) := by
      rcases e with ⟨e1, e2⟩
      simp at hk hv
      rw [hk, hv]
    exact this ▸ he

theorem scanLoop_total (b : Bool) (fs : List (Str × ISymbols)) (files : List Str) :
    ∀ (fuel : Nat) (elems : List Str) (i : Nat) (st : StorageService) (visited : List Str),
      elems.Nodup →
      (∀ y ∈ elems, y ∈ files ++ importUniverse fs) →
      i ≤ elems.length →
      files.length + (importUniverse fs).length + 1 ≤ fuel + i →
      ∃ st2 s,
        scanLoop b fs fuel elems i st visited
          = some (st2, visited ++ (elems ++ s).drop i) ∧ (elems ++ s).Nodup := by
  intro fuel
  induction fuel with
  | zero =>
    intro elems i st visited hnd hmem hi hfuel
    exfalso
    have hsub : elems ⊆ files ++ importUniverse fs := fun y hy => hmem y hy
    have hlen := (List.subperm_of_subset hnd hsub).length_le
    rw [List.length_append] at hlen
    omega
  | succ fuel ih =>
    intro elems i st visited hnd hmem hi hfuel
    by_cases h : i < elems.length
    · rcases hm : mapGet fs (jsNormalize (elems.get ⟨i, h⟩)) with _ | symbols
      · have hstep : scanLoop b fs (fuel + 1) elems i st visited =
            scanLoop b fs fuel elems (i + 1)
              (st.delete (uriFile (jsNormalize (elems.get ⟨i, h⟩))))
              (visited ++ [elems.get ⟨i, h⟩]) := by
          simp only [scanLoop]
          rw [dif_pos h, hm]
        rw [hstep]
        obtain ⟨st2, s, heq, hnd2⟩ :=
          ih elems (i + 1)
            (st.delete (uriFile (jsNormalize (elems.get ⟨i, h⟩))))
            (visited ++ [elems.get ⟨i, h⟩]) hnd hmem h (by omega)
        refine ⟨st2, s, ?_, hnd2⟩
        rw [heq]
        have hilen : i < (elems ++ s).length := by
          rw [List.length_append]; omega
        have hdrop : (elems ++ s).drop i = (elems ++ s).get ⟨i, hilen⟩ :: (elems ++ s).drop (i + 1) := by
          rw [List.drop_eq_getElem_cons hilen]
          rfl
        have hgeti : (elems ++ s).get ⟨i, hilen⟩ = elems.get ⟨i, h⟩ := by
          simp only [List.get_eq_getElem]
          exact List.getElem_append_left h
        rw [hdrop, hgeti]
        simp
      · have hstep : scanLoop b fs (fuel + 1) elems i st visited =
            scanLoop b fs fuel
              (if b then
                (symbols.imports.filter (fun im => !im.dynamic && !im.css)).foldl
                  (fun l im => setAdd l im.filepath) elems
              else elems)
              (i + 1)
              (st.set (uriFile (jsNormalize (elems.get ⟨i, h⟩)))
                { toISymbols := symbols,
                  document := some (uriToFsPath (uriFile (jsNormalize (elems.get ⟨i, h⟩)))),
                  filepath := some (jsNormalize (elems.get ⟨i, h⟩)) })
              (visited ++ [elems.get ⟨i, h⟩]) := by
          simp only [scanLoop]
          rw [dif_pos h, hm]
        rw [hstep]
        set elems1 := (if b then
            (symbols.imports.filter (fun im => !im.dynamic && !im.css)).foldl
              (fun l im => setAdd l im.filepath) elems
          else elems) with helems1
        have hmm : (jsNormalize (elems.get ⟨i, h⟩), symbols) ∈ fs := mapGet_mem hm
        have hext : ∃ suffix, elems1 = elems ++ suffix := by
          rw [helems1]
          by_cases hb : b
          · rw [if_pos hb]
            exact importFold_extends _ elems
          · rw [if_neg hb]
            exact ⟨[], by simp⟩
        have hnd1 : elems1.Nodup := by
          rw [helems1]
          by_cases hb : b
          · rw [if_pos hb]
            exact importFold_nodup _ elems hnd
          · rw [if_neg hb]
            exact hnd
        have hmem1 : ∀ y ∈ elems1, y ∈ files ++ importUniverse fs := by
          rw [helems1]
          by_cases hb : b
          · rw [if_pos hb]
            intro y hy
            rcases importFold_mem _ elems y hy with h1 | h1
            · exact hmem y h1
            · refine List.mem_append.2 (Or.inr ?_)
              have hsubl : (symbols.imports.filter (fun im => !im.dynamic && !im.css)).map
                  (fun im => im.filepath) ⊆ symbols.imports.map (fun im => im.filepath) :=
                ((List.filter_sublist symbols.imports).map (fun im => im.filepath)).subset
              exact importUniverse_mem fs hmm (hsubl h1)
          · rw [if_neg hb]
            exact hmem
        obtain ⟨suffix, hsuf⟩ := hext
        have hi1 : i + 1 ≤ elems1.length := by
          rw [hsuf, List.length_append]
          omega
        obtain ⟨st2, s2, heq, hnd2⟩ :=
          ih elems1 (i + 1)
            (st.set (uriFile (jsNormalize (elems.get ⟨i, h⟩)))
              { toISymbols := symbols,
                document := some (uriToFsPath (uriFile (jsNormalize (elems.get ⟨i, h⟩)))),
                filepath := some (jsNormalize (elems.get ⟨i, h⟩)) })
            (visited ++ [elems.get ⟨i, h⟩]) hnd1 hmem1 hi1 (by omega)
        refine ⟨st2, suffix ++ s2, ?_, ?_⟩
        · rw [heq, hsuf]
          have hilen : i < (elems ++ (suffix ++ s2)).length := by
            rw [List.length_append]; omega
          have hassoc : elems ++ suffix ++ s2 = elems ++ (suffix ++ s2) := by
            rw [List.append_assoc]
          rw [hassoc]
          have hdrop : (elems ++ (suffix ++ s2)).drop i
              = (elems ++ (suffix ++ s2)).get ⟨i, hilen⟩ :: (elems ++ (suffix ++ s2)).drop (i + 1) := by
            rw [List.drop_eq_getElem_cons hilen]
            rfl
          have hgeti : (elems ++ (suffix ++ s2)).get ⟨i, hilen⟩ = elems.get ⟨i, h⟩ := by
            simp only [List.get_eq_getElem]
            exact List.getElem_append_left h
          rw [hdrop, hgeti]
          simp
        · rw [hsuf, List.append_assoc] at hnd2
          exact hnd2
    · refine ⟨st, [], ?_, by simpa using hnd⟩
      rw [scanLoop, dif_neg h]
      have hdrop : (elems ++ []).drop i = [] := by
        rw [List.append_nil]
        exact List.drop_eq_nil_of_le (by omega)
      rw [hdrop, List.append_nil]

/-- `scanScssFiles` always terminates regularly, and the list of processed
paths has no duplicates: set semantics on the scan queue. -/
theorem scanScssFiles_total (b : Bool) (fs : List (Str × ISymbols))
    (files : List Str) (st : StorageService) :
    ∃ st2 visited, scanScssFiles b fs files st = some (st2, visited) ∧ visited.Nodup := by
  have hnd := setOfList_nodup files
  have hmem : ∀ y ∈ setOfList files, y ∈ files ++ importUniverse fs :=
    fun y hy => List.mem_append.2 (Or.inl (setOfList_mem hy))
  have hfuel : files.length + (importUniverse fs).length + 1
      ≤ (files.length + (importUniverse fs).length + 1) + 0 := by omega
  obtain ⟨st2, s, heq, hnd2⟩ :=
    scanLoop_total b fs files (files.length + (importUniverse fs).length + 1)
      (setOfList files) 0 st [] hnd hmem (Nat.zero_le _) hfuel
  exact ⟨st2, setOfList files ++ s, by simpa [scanScssFiles] using heq, hnd2⟩

/-- The spec's cycle example: two files whose symbol tables statically
refer to each other (non-dynamic, non-css imports). -/
def cycleFs : List (Str × ISymbols) :=
  [(("/a.scss".data : Str), { imports := [⟨"/b.scss".data, false, false⟩] }),
   (("/b.scss".data : Str), { imports := [⟨"/a.scss".data, false, false⟩] })]

/-- Claim C4: `scanScssFiles` terminates on every finite list of input
paths even under import cycles — each distinct path is scanned at most
once per call (the processed list has no duplicates) — and scanning the
two-file mutual-import cycle seeded with `/a.scss` leaves exactly one
Index entry per file. -/
theorem claim4_scan_termination_cycle_safety :
    (∀ (b : Bool) (fs : List (Str × ISymbols)) (files : List Str) (st : StorageService),
      ∃ st2 visited, scanScssFiles b fs files st = some (st2, visited) ∧ visited.Nodup)
    ∧ (scanScssFiles true cycleFs ["/a.scss".data] (⟨[], [], []⟩ : StorageService)).map
        (fun r => (r.1.keys, r.2))
      = some ([uriFile ("/a.scss".data), uriFile ("/b.scss".data)],
              ["/a.scss".data, "/b.scss".data]) :=
  ⟨scanScssFiles_total, by decide⟩

/-! ## Helper lemmas: deletion and empty definition queries -/

theorem mapSet_mem {α : Type} {m : List (Str × α)} {k : Str} {v : α} {e : Str × α}
    (h : e ∈ mapSet m k v) : e ∈ m ∨ e = (k, v) := by
  unfold mapSet at h
  by_cases hany : m.any (fun e => e.1 = k) = true
  · rw [if_pos hany] at h
    obtain ⟨a, ha, hae⟩ := List.mem_map.1 h
    by_cases hak : a.1 = k
    · rw [if_pos hak] at hae
      exact Or.inr hae.symm
    · rw [if_neg hak] at hae
      exact Or.inl (hae ▸ ha)
  · rw [if_neg hany] at h
    rcases List.mem_append.1 h with h1 | h1
    · exact Or.inl h1
    · exact Or.inr (List.mem_singleton.1 h1)

theorem mapGet_eq_none_not_mem {α : Type} {m : List (Str × α)} {k : Str}
    (h : mapGet m k = none) (v : α) (hv : (k, v) ∈ m) : False := by
  induction m with
  | nil => exact absurd hv (List.not_mem_nil _)
  | cons e t ih =>
    rw [mapGet_cons] at h
    by_cases he : e.1 = k
    · rw [if_pos he] at h
      exact Option.noConfusion h
    · rw [if_neg he] at h
      rcases List.mem_cons.1 hv with h1 | h1
      · exact he (by rw [← h1])
      · exact ih h h1

theorem uriFile_inj {p q : Str} (h : uriFile p = uriFile q) : p = q :=
  List.append_cancel_left h

/-- The Index shape the scanner maintains: every stored symbol table that
carries a `filepath` sits at the key `uriFile filepath`. -/
def docKeyInv (st : StorageService) : Prop :=
  ∀ e ∈ st.scssDocuments, ∀ p, e.2.filepath = some p → e.1 = uriFile p

theorem scanLoop_keyInv (b : Bool) (fs : List (Str × ISymbols)) :
    ∀ (fuel : Nat) (elems : List Str) (i : Nat) (st : StorageService) (visited : List Str)
      (st2 : StorageService) (v2 : List Str),
      scanLoop b fs fuel elems i st visited = some (st2, v2) →
      docKeyInv st → docKeyInv st2 := by
  intro fuel
  induction fuel with
  | zero =>
    intro elems i st visited st2 v2 heq
    simp only [scanLoop] at heq
    exact fun _ => Option.noConfusion heq
  | succ fuel ih =>
    intro elems i st visited st2 v2 heq hinv
    by_cases h : i < elems.length
    · rcases hmg : mapGet fs (jsNormalize (elems.get ⟨i, h⟩)) with _ | symbols
      · have hstep : scanLoop b fs (fuel + 1) elems i st visited =
            scanLoop b fs fuel elems (i + 1)
              (st.delete (uriFile (jsNormalize (elems.get ⟨i, h⟩))))
              (visited ++ [elems.get ⟨i, h⟩]) := by
          simp only [scanLoop]
          rw [dif_pos h, hmg]
        rw [hstep] at heq
        refine ih elems (i + 1) _ _ st2 v2 heq ?_
        intro e he p hp
        exact hinv e (List.mem_of_mem_filter he) p hp
      · have hstep : scanLoop b fs (fuel + 1) elems i st visited =
            scanLoop b fs fuel
              (if b then
                (symbols.imports.filter (fun im => !im.dynamic && !im.css)).foldl
                  (fun l im => setAdd l im.filepath) elems
              else elems)
              (i + 1)
              (st.set (uriFile (jsNormalize (elems.get ⟨i, h⟩)))
                { toISymbols := symbols,
                  document := some (uriToFsPath (uriFile (jsNormalize (elems.get ⟨i, h⟩)))),
                  filepath := some (jsNormalize (elems.get ⟨i, h⟩)) })
              (visited ++ [elems.get ⟨i, h⟩]) := by
          simp only [scanLoop]
          rw [dif_pos h, hmg]
        rw [hstep] at heq
        refine ih _ (i + 1) _ _ st2 v2 heq ?_
        intro e he p hp
        rcases mapSet_mem he with hc | hc
        · exact hinv e hc p hp
        · have hp' : some (jsNormalize (elems.get ⟨i, h⟩)) = some p := by
            rw [hc] at hp
            exact hp
          have hpe : jsNormalize (elems.get ⟨i, h⟩) = p := Option.some.inj hp'
          rw [hc, ← hpe]
    · have hstep : scanLoop b fs (fuel + 1) elems i st visited = some (st, visited) := by
        rw [scanLoop, dif_neg h]
      rw [hstep] at heq
      have hpair := Option.some.inj heq
      have hst : st = st2 := congrArg Prod.fst hpair
      rw [← hst]
      exact hinv

theorem scanScssFiles_keyInv {b : Bool} {fs : List (Str × ISymbols)}
    {files : List Str} {st st2 : StorageService} {v2 : List Str}
    (heq : scanScssFiles b fs files st = some (st2, v2)) (hinv : docKeyInv st) :
    docKeyInv st2 := by
  unfold scanScssFiles at heq
  exact scanLoop_keyInv b fs _ _ _ _ _ st2 v2 heq hinv

/-- Re-running the scan on a single path whose file is gone deletes the
path's Index entry and nothing else. -/
theorem scan_single_missing (b : Bool) (fs : List (Str × ISymbols)) (st : StorageService)
    (D : Str) (hD : mapGet fs (jsNormalize D) = none) :
    scanScssFiles b fs [D] st = some (st.delete (uriFile (jsNormalize D)), [D]) := by
  have hset : setOfList [D] = [D] := by
    simp [setOfList, setAdd]
  have hfe : ([D] : List Str).length + (importUniverse fs).length + 1
      = (importUniverse fs).length + 1 + 1 := by
    simp only [List.length_singleton]
    omega
  unfold scanScssFiles
  rw [hset, hfe]
  have h1 : (0 : Nat) < ([D] : List Str).length := by simp
  have hstep1 : ∀ fl : Nat, scanLoop b fs (fl + 1) [D] 0 st []
      = scanLoop b fs fl [D] 1 (st.delete (uriFile (jsNormalize D))) [D] := by
    intro fl
    simp only [scanLoop, List.get_eq_getElem, List.getElem_cons_zero]
    rw [dif_pos h1, hD]
    rfl
  have hstep2 : ∀ fl : Nat, scanLoop b fs (fl + 1) [D] 1
      (st.delete (uriFile (jsNormalize D))) [D]
      = some (st.delete (uriFile (jsNormalize D)), [D]) := by
    intro fl
    rw [scanLoop, dif_neg (by simp)]
  rw [hstep1 ((importUniverse fs).length + 1), hstep2 (importUniverse fs).length]

theorem flatMap_nil_of_forall {α β : Type} (l : List α) (f : α → List β)
    (h : ∀ x ∈ l, f x = []) : l.flatMap f = [] := by
  induction l with
  | nil => rfl
  | cons a t ih =>
    rw [List.flatMap_cons, h a (List.mem_cons_self a t), List.nil_append]
    exact ih (fun x hx => h x (List.mem_cons_of_mem a hx))

/-- When the gathered candidate list is empty the provider returns the
`null` result (never the thrown `TypeError`). -/
theorem goIdentifier_of_no_candidates (gdp : Str → Option Str → Str)
    (storage : StorageService) (documentUri : Str) (symbols : IDocumentSymbols)
    (identifier : IIdentifier)
    (h : getSymbols gdp
        (getSymbolsRelatedToDocument
          (if symbols.document ≠ none then storage.set documentUri symbols else storage)
          (uriToFsPath documentUri))
        identifier (uriToFsPath documentUri) = []) :
    goIdentifier gdp storage documentUri symbols identifier
      = some ((if symbols.document ≠ none then storage.set documentUri symbols else storage),
          none) := by
  simp only [goIdentifier]
  rw [h]
  rfl

/-- Claim C5: after a full scan from an empty Index and a delete event for
`D` (re-running the scan on `D` when `D`'s file no longer exists), the
Index has no entry for `D`; and a definition query whose only matching
symbols were declared in `D` (every relevant table with a matching entry
carries `D`'s filepath, while the querying document itself is not `D`)
returns the `null` result rather than throwing. -/
theorem claim5_deletion_correctness
    (b : Bool) (fs1 fs2 : List (Str × ISymbols)) (files : List Str) (D : Str)
    (st1 st2 st3 : StorageService) (v1 v2 : List Str)
    (gdp : Str → Option Str → Str) (documentUri : Str)
    (symbols : IDocumentSymbols) (identifier : IIdentifier)
    (hD2 : mapGet fs2 (jsNormalize D) = none)
    (h1 : scanScssFiles b fs1 files (⟨[], [], []⟩ : StorageService) = some (st1, v1))
    (h2 : scanScssFiles b fs2 [D] st1 = some (st2, v2))
    (hst3 : st3 = if symbols.document ≠ none then st2.set documentUri symbols else st2)
    (hq : symbols.filepath ≠ some (jsNormalize D))
    (hmt : ∀ t ∈ getSymbolsRelatedToDocument st3 (uriToFsPath documentUri),
        getSymbolsElem gdp identifier (uriToFsPath documentUri) t ≠ [] →
        t.filepath = some (jsNormalize D)) :
    st2.get (uriFile (jsNormalize D)) = none
    ∧ goIdentifier gdp st2 documentUri symbols identifier = some (st3, none) := by
  have h2' := scan_single_missing b fs2 st1 D hD2
  rw [h2'] at h2
  have hpair := Option.some.inj h2
  have hst2 : st1.delete (uriFile (jsNormalize D)) = st2 := congrArg Prod.fst hpair
  have habs : st2.get (uriFile (jsNormalize D)) = none := by
    rw [← hst2]
    show mapGet (mapDelete st1.scssDocuments (uriFile (jsNormalize D)))
        (uriFile (jsNormalize D)) = none
    rw [mapGet_mapDelete, if_pos rfl]
  refine ⟨habs, ?_⟩
  have hki1 : docKeyInv st1 :=
    scanScssFiles_keyInv h1 (fun e he => absurd he (List.not_mem_nil e))
  have hki2 : docKeyInv st2 := by
    rw [← hst2]
    intro e he p hp
    exact hki1 e (List.mem_of_mem_filter he) p hp
  have hnone : ∀ t ∈ getSymbolsRelatedToDocument st3 (uriToFsPath documentUri),
      getSymbolsElem gdp identifier (uriToFsPath documentUri) t = [] := by
    intro t ht
    by_contra hne
    have hfp := hmt t ht hne
    have htv : t ∈ st3.values := by
      unfold getSymbolsRelatedToDocument getSymbolsCollection at ht
      exact List.mem_of_mem_filter ht
    obtain ⟨e, he, hev⟩ := List.mem_map.1 htv
    have hcases : e ∈ st2.scssDocuments ∨ e = (documentUri, symbols) := by
      rw [hst3] at he
      by_cases hd : symbols.document ≠ none
      · rw [if_pos hd] at he
        exact mapSet_mem he
      · rw [if_neg hd] at he
        exact Or.inl he
    rcases hcases with hc | hc
    · have hkey : e.1 = uriFile (jsNormalize D) := hki2 e hc _ (by rw [hev]; exact hfp)
      have hmem2 : (uriFile (jsNormalize D), e.2) ∈ st2.scssDocuments := by
        rw [← hkey]
        exact hc
      exact mapGet_eq_none_not_mem habs e.2 hmem2
    · rw [hc] at hev
      rw [← hev] at hfp
      exact hq hfp
  have hcand : getSymbols gdp (getSymbolsRelatedToDocument st3 (uriToFsPath documentUri))
      identifier (uriToFsPath documentUri) = [] := by
    rw [getSymbols_eq_flatMap]
    exact flatMap_nil_of_forall _ _ hnone
  rw [hst3]
  apply goIdentifier_of_no_candidates
  rw [← hst3]
  exact hcand

/-- The file system of the deletion example: `/d.scss` declares variable
`$x` before being deleted. -/
def fs1Ex : List (Str × ISymbols) :=
  [(("/d.scss".data : Str),
    { «variables» := [{ name := "x".data, position := some ⟨1, 2⟩ }] })]

/-- The Index after scanning `/d.scss` from an empty Index. -/
def st1Ex : StorageService :=
  ⟨[(("file:///d.scss".data : Str),
    { toISymbols := { «variables» := [{ name := "x".data, position := some ⟨1, 2⟩ }] },
      document := some ("/d.scss".data), filepath := some ("/d.scss".data) })], [], []⟩

/-- The freshly parsed (empty) table of the querying document `/q.scss`. -/
def symbolsEx : IDocumentSymbols :=
  { document := some ("/q.scss".data), filepath := some ("/q.scss".data) }

/-- The Index the definition query writes back to after the deletion. -/
def st3Ex : StorageService :=
  ⟨[(("file:///q.scss".data : Str), symbolsEx)], [], []⟩

/-- Witness for `claim5_deletion_correctness`: scan `/d.scss`, delete its
file, re-scan it, then look up variable `$x` from `/q.scss`. -/
theorem claim5_deletion_correctness_witness :
    (mapGet ([] : List (Str × ISymbols)) (jsNormalize ("/d.scss".data)) = none)
    ∧ (scanScssFiles false fs1Ex ["/d.scss".data] (⟨[], [], []⟩ : StorageService)
        = some (st1Ex, ["/d.scss".data]))
    ∧ (scanScssFiles false [] ["/d.scss".data] st1Ex
        = some ((⟨[], [], []⟩ : StorageService), ["/d.scss".data]))
    ∧ (st3Ex = if symbolsEx.document ≠ none then
        (⟨[], [], []⟩ : StorageService).set ("file:///q.scss".data) symbolsEx
      else (⟨[], [], []⟩ : StorageService))
    ∧ (symbolsEx.filepath ≠ some (jsNormalize ("/d.scss".data)))
    ∧ ((⟨[], [], []⟩ : StorageService).get (uriFile (jsNormalize ("/d.scss".data))) = none
      ∧ goIdentifier (fun _ _ => []) (⟨[], [], []⟩ : StorageService)
          ("file:///q.scss".data) symbolsEx
          ⟨SymbolsKeyT.variables, ⟨0, 0⟩, "x".data⟩
        = some (st3Ex, none)) :=
  ⟨by decide, by decide, by decide, by decide, by decide,
    claim5_deletion_correctness false fs1Ex [] ["/d.scss".data] ("/d.scss".data)
      st1Ex (⟨[], [], []⟩ : StorageService) st3Ex ["/d.scss".data] ["/d.scss".data]
      (fun _ _ => []) ("file:///q.scss".data) symbolsEx
      ⟨SymbolsKeyT.variables, ⟨0, 0⟩, "x".data⟩
      (by decide) (by decide) (by decide) (by decide) (by decide) (by decide)⟩
